import Mathlib

/-!
# Queue + listener subsystem: formal model and verification

This file shallowly embeds the queue/listener core of the incident-management
repository (src/jobs_queue.py, src/queue_listener.py, src/corrective_actions.py)
and proves or refutes the specification claims about it.

Conventions:
* Python/JSON values are modelled by the inductive `Json` (integers only for
  numbers: the payloads of this system carry no floats).  A constructor
  `Json.opaquePy` stands for a Python object that `json.dumps` cannot
  serialize (it raises TypeError on it).
* Fallible Python code is modelled with `Except Exn`, pure partial library
  functions with `Option`.
* The relational store behind `QueueModel` (incident_db/models/queue.py,
  a repository file not among the sources) is modelled from the spec, see
  the definitions marked "Modelled from the spec".
-/

namespace QueueSpec

/-- Python exceptions that the modelled code can raise. -/
inductive Exn where
  | keyError (k : String)
  | typeError
  | attributeError
  | valueError (msg : String)
  | jsonDecodeError
  | handlerError (msg : String)
deriving DecidableEq, Repr

/-- JSON-like Python values.  `num` carries integers (the queue payloads of
this system never carry floats); `opaquePy` is a Python object that is not
JSON-serializable (`json.dumps` raises TypeError when it meets one). -/
inductive Json where
  | null
  | bool (b : Bool)
  | num (n : Int)
  | str (s : String)
  | arr (elems : List Json)
  | obj (members : List (String × Json))
  | opaquePy (desc : String)

/-- Python `dict` lookup on an association list (keys are unique in any list
that models an actual Python dict, so first match is the match). -/
def lookupKV : List (String × Json) → String → Option Json
  | [], _ => none
  | (k, v) :: rest, key => if k = key then some v else lookupKV rest key

/-- Python `d[key] = v`: replace in place if the key exists, else append. -/
def dictSet : List (String × Json) → String → Json → List (String × Json)
  | [], k, v => [(k, v)]
  | (k', v') :: rest, k, v =>
    if k' = k then (k', v) :: rest else (k', v') :: dictSet rest k v

/-- `dict(pairs)`: left fold of single-key assignment starting from `{}`. -/
def buildDict (pairs : List (String × Json)) : List (String × Json) :=
  pairs.foldl (fun d kv => dictSet d kv.1 kv.2) []

/-- Python truthiness of a value (`if not x`). -/
def truthy : Json → Bool
  | .null => false
  | .bool b => b
  | .num n => n != 0
  | .str s => s != ""
  | .arr xs => !xs.isEmpty
  | .obj kvs => !kvs.isEmpty
  | .opaquePy _ => true

/-- Python subscript `j[key]` with a string key: KeyError when the key is
missing from a dict, TypeError when the value is not a dict. -/
def Json.getItem (j : Json) (key : String) : Except Exn Json :=
  match j with
  | .obj kvs =>
    match lookupKV kvs key with
    | some v => .ok v
    | none => .error (.keyError key)
  | _ => .error .typeError

/-- Python `j.get(key)` on a dict (AttributeError when not a dict is raised
by the caller's context and handled there). -/
def Json.dictGet (j : Json) (key : String) : Option Json :=
  match j with
  | .obj kvs => lookupKV kvs key
  | _ => none

/-! ## json.dumps (Python stdlib, default options: ensure_ascii, separators
we model the exact character stream the repository stores in the queue) -/

/-- The character code of an opening brace (written numerically throughout). -/
def lbrace : Char := Char.ofNat 123

/-- The character code of a closing brace (written numerically throughout). -/
def rbrace : Char := Char.ofNat 125

/-- Lowercase hex digit for a value below 16. -/
def hexDig (d : Nat) : Char :=
  if d < 10 then Char.ofNat (48 + d) else Char.ofNat (87 + d)

/-- Four lowercase hex digits, as in Python's `\uXXXX` escapes. -/
def toHex4 (n : Nat) : List Char :=
  [hexDig (n / 4096 % 16), hexDig (n / 256 % 16), hexDig (n / 16 % 16), hexDig (n % 16)]

/-- One character of a JSON string as `json.dumps` (ensure_ascii) emits it:
short escapes for quote, backslash and the common control characters,
`\uXXXX` for other control or non-ASCII characters (with a surrogate pair
above U+FFFF), and the character itself for printable ASCII. -/
def escapeChar (c : Char) : List Char :=
  if c = '"' then ['\\', '"']
  else if c = '\\' then ['\\', '\\']
  else if c.toNat = 8 then ['\\', 'b']
  else if c.toNat = 9 then ['\\', 't']
  else if c.toNat = 10 then ['\\', 'n']
  else if c.toNat = 12 then ['\\', 'f']
  else if c.toNat = 13 then ['\\', 'r']
  else if c.toNat < 32 ∨ 127 ≤ c.toNat then
    if c.toNat < 65536 then '\\' :: 'u' :: toHex4 c.toNat
    else
      ('\\' :: 'u' :: toHex4 (55296 + (c.toNat - 65536) / 1024)) ++
      ('\\' :: 'u' :: toHex4 (56320 + (c.toNat - 65536) % 1024))
  else [c]

/-- Escape a whole string body. -/
def escapeString (l : List Char) : List Char :=
  l.foldr (fun c acc => escapeChar c ++ acc) []

/-- A JSON string literal: quote, escaped body, quote. -/
def strChars (s : String) : List Char :=
  '"' :: escapeString s.toList ++ ['"']

/-- Decimal digit character. -/
def digitChar (d : Nat) : Char := Char.ofNat (48 + d)

/-- Decimal representation of a natural number, as Python prints it. -/
def natChars (n : Nat) : List Char :=
  if n = 0 then ['0'] else ((Nat.digits 10 n).map digitChar).reverse

/-- Decimal representation of an integer, as Python prints it. -/
def intChars (n : Int) : List Char :=
  if n < 0 then '-' :: natChars n.natAbs else natChars n.toNat

mutual

/-- The exact character stream of `json.dumps(v)` with default options
(`ensure_ascii=True`, separators item after a comma-space and key after a
colon-space), or `none` when the value contains a non-serializable object
(Python raises TypeError there). -/
def dumpsChars : Json → Option (List Char)
  | .null => some ['n', 'u', 'l', 'l']
  | .bool true => some ['t', 'r', 'u', 'e']
  | .bool false => some ['f', 'a', 'l', 's', 'e']
  | .num n => some (intChars n)
  | .str s => some (strChars s)
  | .arr xs => (dumpsItems xs).map (fun cs => '[' :: cs ++ [']'])
  | .obj kvs => (dumpsMembers kvs).map (fun cs => lbrace :: cs ++ [rbrace])
  | .opaquePy _ => none

/-- Array elements joined by comma-space. -/
def dumpsItems : List Json → Option (List Char)
  | [] => some []
  | [x] => dumpsChars x
  | x :: y :: ys => do
    let cx ← dumpsChars x
    let rest ← dumpsItems (y :: ys)
    some (cx ++ ',' :: ' ' :: rest)

/-- Object members joined by comma-space, key and value joined by colon-space. -/
def dumpsMembers : List (String × Json) → Option (List Char)
  | [] => some []
  | [(k, v)] => (dumpsChars v).map (fun cv => strChars k ++ ':' :: ' ' :: cv)
  | (k, v) :: m :: ms => do
    let cv ← dumpsChars v
    let rest ← dumpsMembers (m :: ms)
    some ((strChars k ++ ':' :: ' ' :: cv) ++ ',' :: ' ' :: rest)

end

/-- `json.dumps` as the repository calls it: a string, or TypeError. -/
def dumps (v : Json) : Except Exn String :=
  match dumpsChars v with
  | some cs => .ok (String.mk cs)
  | none => .error .typeError

mutual

/-- Recursion budget a parser run needs for this value (one unit per
dispatch step of the scanner). -/
def jsonFuel : Json → Nat
  | .null | .bool _ | .num _ | .str _ | .opaquePy _ => 1
  | .arr xs => 1 + itemsFuel xs
  | .obj kvs => 1 + membersFuel kvs

/-- Budget for the element loop of an array. -/
def itemsFuel : List Json → Nat
  | [] => 0
  | x :: xs => 1 + jsonFuel x + itemsFuel xs

/-- Budget for the member loop of an object. -/
def membersFuel : List (String × Json) → Nat
  | [] => 0
  | (_, v) :: kvs => 1 + jsonFuel v + membersFuel kvs

end

mutual

/-- Every object in the value has pairwise distinct keys (true of every
value that comes from an actual Python dict or from `json.loads`). -/
def noDupJ : Json → Bool
  | .arr xs => noDupItems xs
  | .obj kvs => decide (kvs.map Prod.fst).Nodup && noDupMembers kvs
  | _ => true

/-- Key uniqueness, element-wise on an array. -/
def noDupItems : List Json → Bool
  | [] => true
  | x :: xs => noDupJ x && noDupItems xs

/-- Key uniqueness, value-wise on object members. -/
def noDupMembers : List (String × Json) → Bool
  | [] => true
  | (_, v) :: kvs => noDupJ v && noDupMembers kvs

end

/-! ## json.loads (Python stdlib scanner and decoder)

Recursive-descent parser over the character list, mirroring the stdlib
decoder: whitespace skipping between tokens, literals, integers (a fraction
or exponent would produce a float, which is outside this model and is
mapped to failure, as are the non-standard NaN/Infinity constants), strings
with the full escape table including surrogate pairs (a lone surrogate
would produce an unrepresentable string and is mapped to failure), arrays
and objects with Python's last-wins duplicate-key handling. -/

/-- JSON whitespace. -/
def isWs (c : Char) : Bool :=
  c.toNat = 32 || c.toNat = 9 || c.toNat = 10 || c.toNat = 13

/-- Skip JSON whitespace. -/
def skipWs : List Char → List Char
  | [] => []
  | c :: r => if isWs c then skipWs r else c :: r

/-- Hex digit value, both cases accepted (as in the stdlib scanner). -/
def hexVal (c : Char) : Option Nat :=
  if 48 ≤ c.toNat ∧ c.toNat ≤ 57 then some (c.toNat - 48)
  else if 97 ≤ c.toNat ∧ c.toNat ≤ 102 then some (c.toNat - 87)
  else if 65 ≤ c.toNat ∧ c.toNat ≤ 70 then some (c.toNat - 55)
  else none

/-- Four hex digits after `\u`. -/
def parseHex4 : List Char → Option (Nat × List Char)
  | a :: b :: c :: d :: rest => do
    let x ← hexVal a
    let y ← hexVal b
    let z ← hexVal c
    let w ← hexVal d
    some (4096 * x + 256 * y + 16 * z + w, rest)
  | _ => none

/-- Prepend a character to the first component of a parse result. -/
def consHead (c : Char) (o : Option (List Char × List Char)) :
    Option (List Char × List Char) :=
  o.map (fun p => (c :: p.1, p.2))

/-- The `\uXXXX` escape handling of the stdlib `py_scanstring`, with the
rest of the string-body scan as continuation `k`: four hex digits; a high
surrogate must be followed by an escaped low surrogate and the pair is
combined; a lone surrogate (which Python would keep as an unpaired
surrogate code unit) has no representation here and is mapped to failure. -/
def parseULow (k : List Char → Option (List Char × List Char)) (h : Nat)
    (r4 : List Char) : Option (List Char × List Char) :=
  match parseHex4 r4 with
  | some (lo, r5) =>
    if 56320 ≤ lo ∧ lo ≤ 57343 then
      consHead (Char.ofNat (65536 + 1024 * (h - 55296) + (lo - 56320))) (k r5)
    else none
  | none => none

def parseUSurrogate (k : List Char → Option (List Char × List Char)) (h : Nat) :
    List Char → Option (List Char × List Char)
  | b1 :: u1 :: r4 => if b1 = '\\' ∧ u1 = 'u' then parseULow k h r4 else none
  | _ => none

def parseUAfterHex (k : List Char → Option (List Char × List Char)) (h : Nat)
    (r3 : List Char) : Option (List Char × List Char) :=
  if 55296 ≤ h ∧ h ≤ 56319 then parseUSurrogate k h r3
  else if 56320 ≤ h ∧ h ≤ 57343 then none
  else consHead (Char.ofNat h) (k r3)

def parseUEscape (k : List Char → Option (List Char × List Char))
    (r : List Char) : Option (List Char × List Char) :=
  match parseHex4 r with
  | none => none
  | some (h, r3) => parseUAfterHex k h r3

/-- String body after the opening quote, as the stdlib `py_scanstring`:
stops at the closing quote, refuses bare control characters (strict mode),
decodes the short escapes and `\uXXXX` escapes (via `parseUEscape`). -/
def parseStringBody : Nat → List Char → Option (List Char × List Char)
  | 0, _ => none
  | _ + 1, [] => none
  | fuel + 1, c :: rest =>
    if c = '"' then some ([], rest)
    else if c = '\\' then
      match rest with
      | [] => none
      | e :: rest2 =>
        if e = '"' then consHead '"' (parseStringBody fuel rest2)
        else if e = '\\' then consHead '\\' (parseStringBody fuel rest2)
        else if e = '/' then consHead '/' (parseStringBody fuel rest2)
        else if e = 'b' then consHead (Char.ofNat 8) (parseStringBody fuel rest2)
        else if e = 'f' then consHead (Char.ofNat 12) (parseStringBody fuel rest2)
        else if e = 'n' then consHead (Char.ofNat 10) (parseStringBody fuel rest2)
        else if e = 'r' then consHead (Char.ofNat 13) (parseStringBody fuel rest2)
        else if e = 't' then consHead (Char.ofNat 9) (parseStringBody fuel rest2)
        else if e = 'u' then parseUEscape (parseStringBody fuel) rest2
        else none
    else if c.toNat < 32 then none
    else consHead c (parseStringBody fuel rest)

/-- Decimal digit? -/
def isDigitCh (c : Char) : Bool := decide (48 ≤ c.toNat ∧ c.toNat ≤ 57)

/-- Value of a decimal digit character. -/
def digitVal (c : Char) : Nat := c.toNat - 48

/-- Longest digit prefix. -/
def takeDigits : List Char → List Char × List Char
  | [] => ([], [])
  | c :: r =>
    if isDigitCh c then
      let p := takeDigits r
      (c :: p.1, p.2)
    else ([], c :: r)

/-- Accumulate decimal digits left to right. -/
def digitsToNat (acc : Nat) : List Char → Nat
  | [] => acc
  | c :: r => digitsToNat (10 * acc + digitVal c) r

/-- Would the number continue with a fraction or exponent (a float)? -/
def startsFracExp : List Char → Bool
  | [] => false
  | c :: _ => c = '.' || c = 'e' || c = 'E'

/-- Unsigned integer as matched by the stdlib NUMBER_RE (`0|[1-9][0-9]*`);
a following fraction or exponent would make a float, outside this model. -/
def parseUInt (cs : List Char) : Option (Nat × List Char) :=
  match cs with
  | [] => none
  | c :: rest =>
    if c = '0' then
      if startsFracExp rest then none else some (0, rest)
    else if isDigitCh c then
      let p := takeDigits rest
      if startsFracExp p.2 then none else some (digitsToNat (digitVal c) p.1, p.2)
    else none

/-- Signed integer. -/
def parseNum (cs : List Char) : Option (Int × List Char) :=
  match cs with
  | [] => none
  | c :: rest =>
    if c = '-' then (parseUInt rest).map (fun p => (-(p.1 : Int), p.2))
    else (parseUInt cs).map (fun p => ((p.1 : Int), p.2))

/-- After `[` and whitespace: empty array or the element loop (a detached
piece of the stdlib `JSONArray`, with the loop passed as `scanItems`). -/
def scanArrayStart (scanItems : List Char → Option (List Json × List Char))
    (ws : List Char) : Option (Json × List Char) :=
  match ws with
  | [] => none
  | c2 :: r2 =>
    if c2 = ']' then some (Json.arr [], r2)
    else (scanItems (c2 :: r2)).map (fun p => (Json.arr p.1, p.2))

/-- After `{` and whitespace: empty object or the member loop. -/
def scanObjectStart
    (scanItems : List Char → Option (List (String × Json) × List Char))
    (ws : List Char) : Option (Json × List Char) :=
  match ws with
  | [] => none
  | c2 :: r2 =>
    if c2 = rbrace then some (Json.obj [], r2)
    else (scanItems (c2 :: r2)).map (fun p => (Json.obj (buildDict p.1), p.2))

/-- After one array element: whitespace, then `]` closes or `,` continues
with the loop `recurse`. -/
def afterArrayItem (recurse : List Char → Option (List Json × List Char))
    (v : Json) (r : List Char) : Option (List Json × List Char) :=
  match skipWs r with
  | [] => none
  | c :: r2 =>
    if c = ']' then some ([v], r2)
    else if c = ',' then
      match recurse (skipWs r2) with
      | some (vs, r3) => some (v :: vs, r3)
      | none => none
    else none

/-- After one object member: whitespace, then `}` closes or `,` continues. -/
def afterObjectValue
    (recurse : List Char → Option (List (String × Json) × List Char))
    (kcs : List Char) (v : Json) (r3 : List Char) :
    Option (List (String × Json) × List Char) :=
  match skipWs r3 with
  | [] => none
  | c3 :: r4 =>
    if c3 = rbrace then some ([(String.mk kcs, v)], r4)
    else if c3 = ',' then
      match recurse (skipWs r4) with
      | some (kvs, r5) => some ((String.mk kcs, v) :: kvs, r5)
      | none => none
    else none

/-- After an object key: whitespace, `:`, whitespace, the value, then the
member separator handling. -/
def afterObjectKey (scanVal : List Char → Option (Json × List Char))
    (recurse : List Char → Option (List (String × Json) × List Char))
    (kcs : List Char) (r1 : List Char) :
    Option (List (String × Json) × List Char) :=
  match skipWs r1 with
  | [] => none
  | c2 :: r2 =>
    if c2 = ':' then
      match scanVal (skipWs r2) with
      | none => none
      | some (v, r3) => afterObjectValue recurse kcs v r3
    else none

mutual

/-- One value, dispatched on its first character exactly as the stdlib
`_scan_once` (no leading whitespace expected; callers skip it). -/
def scanValue : Nat → List Char → Option (Json × List Char)
  | 0, _ => none
  | _ + 1, [] => none
  | fuel + 1, c :: rest =>
    if c = '"' then
      (parseStringBody (rest.length + 1) rest).map
        (fun p => (Json.str (String.mk p.1), p.2))
    else if c = lbrace then scanObjectStart (scanObjectItems fuel) (skipWs rest)
    else if c = '[' then scanArrayStart (scanArrayItems fuel) (skipWs rest)
    else if c = 'n' then
      match rest with
      | 'u' :: 'l' :: 'l' :: r => some (Json.null, r)
      | _ => none
    else if c = 't' then
      match rest with
      | 'r' :: 'u' :: 'e' :: r => some (Json.bool true, r)
      | _ => none
    else if c = 'f' then
      match rest with
      | 'a' :: 'l' :: 's' :: 'e' :: r => some (Json.bool false, r)
      | _ => none
    else if c = '-' ∨ isDigitCh c = true then
      (parseNum (c :: rest)).map (fun p => (Json.num p.1, p.2))
    else none

/-- Array elements from the first element on (whitespace already skipped),
then comma/close-bracket, as the stdlib `JSONArray` loop. -/
def scanArrayItems : Nat → List Char → Option (List Json × List Char)
  | 0, _ => none
  | fuel + 1, cs =>
    match scanValue fuel cs with
    | none => none
    | some (v, r) => afterArrayItem (scanArrayItems fuel) v r

/-- Object members from the first key on (whitespace already skipped), as
the stdlib `JSONObject` loop: quoted key, colon, value, comma or brace. -/
def scanObjectItems : Nat → List Char → Option (List (String × Json) × List Char)
  | 0, _ => none
  | _ + 1, [] => none
  | fuel + 1, c :: rest =>
    if c = '"' then
      match parseStringBody (rest.length + 1) rest with
      | none => none
      | some (kcs, r1) => afterObjectKey (scanValue fuel) (scanObjectItems fuel) kcs r1
    else none

end

/-- `json.loads`: skip leading whitespace, scan one value, require only
whitespace to follow.  The scanner budget (one unit per dispatch step) is
covered by the input length. -/
def loads (s : String) : Option Json :=
  match scanValue (s.toList.length + 1) (skipWs s.toList) with
  | some (v, r) => if skipWs r = [] then some v else none
  | none => none

/-! ## Task record store

`QueueModel` lives in incident_db/models/queue.py, a repository file that is
not among the sources; its operations are modelled from the spec (sections
3, 4.1): one durable table of records `(id, data, status)` in insertion
order, status `pending` or `processed`, no deletion. -/

/-- Lifecycle status of a task record. -/
inductive Status where
  | pending
  | processed
deriving DecidableEq, Repr

/-- One row of the queue table: id, serialized payload, status. -/
structure Record where
  id : String
  data : String
  status : Status
deriving DecidableEq, Repr

/-- The queue table, in insertion order (oldest first). -/
abbrev Store := List Record

/-- Modelled from the spec: `QueueModel.get_first_pending_item` /
`select_first_pending()` returns the oldest record with status `pending`,
or none (the backing table orders by insertion). -/
def get_first_pending_item (s : Store) : Option Record :=
  s.find? (fun r => r.status = Status.pending)

/-- Modelled from the spec: `QueueModel.set_processed` / `update_status`
marks the record with the given id `processed`; no row is deleted. -/
def set_processed (mid : String) (s : Store) : Store :=
  s.map (fun r => if r.id = mid then { r with status := Status.processed } else r)

/-- Modelled from the spec: the `INSERT INTO queue (id, data)` statement
appends a new record whose status defaults to `pending`. -/
def insertRecord (rid data : String) (s : Store) : Store :=
  s ++ [⟨rid, data, Status.pending⟩]

/-- Count records with a given status. -/
def countStatus (st : Status) (s : Store) : Nat :=
  (s.filter (fun r => r.status = st)).length

/-! ## SQLiteQueue (src/jobs_queue.py) -/

/-- Queue state: the table plus the id source (`uuid.uuid4()` is modelled
from the spec invariant that ids are opaque and globally unique: a counter
that never repeats). -/
structure QState where
  recs : Store
  nextId : Nat
deriving DecidableEq, Repr

/-- Modelled from the spec: a fresh opaque unique identifier. -/
def freshId (n : Nat) : String := "uuid-" ++ toString n

/-- `SQLiteQueue.enqueue` (src/jobs_queue.py lines 23-30): make an id,
serialize the payload with `json.dumps` (an exception here propagates
before anything is written), then insert the row. -/
def SQLiteQueue.enqueue (data : Json) (st : QState) : Except Exn (String × QState) :=
  match dumps data with
  | .error e => .error e
  | .ok dataJson =>
    let itemId := freshId st.nextId
    .ok (itemId, ⟨insertRecord itemId dataJson st.recs, st.nextId + 1⟩)

/-- `SQLiteQueue.get_stats` (src/jobs_queue.py lines 56-62): the SQL
`SELECT status, COUNT(*) FROM queue GROUP BY status` as a mapping, with the
groups in the backend's group-key order (pending before processed) and
absent statuses absent from the mapping. -/
def SQLiteQueue.get_stats (st : QState) : List (String × Nat) :=
  (if countStatus Status.pending st.recs ≠ 0 then
    [("pending", countStatus Status.pending st.recs)] else []) ++
  (if countStatus Status.processed st.recs ≠ 0 then
    [("processed", countStatus Status.processed st.recs)] else [])

/-! ## Corrective-action handler (src/corrective_actions.py)

The vector search + LLM call and the incident database are external
collaborators; their outcomes are inputs of the model (`HandlerEnv`).  The
observable behaviour (which queries are issued, which updates happen, what
is returned or raised) is traced as events. -/

/-- Observable side effects of one watcher cycle. -/
inductive Event where
  | marked (rid : String)
  | llmInvoked (data : Json)
  | corrInvoked (message : Json)
  | ragQueried (query : String)
  | dbUpdated (classifierId : Json) (action : String)
  | slept

/-- Outcomes of the external collaborators:
* `llmProcess` — Modelled from the spec: `Transporter.process` (module
  mcp_agent.main is not among the sources); an external task handler that
  may raise.
* `rag` — result of `vectordb.similarity_search` + `llm.invoke` for a
  query, or the exception those raise.
* `dbUpdate` — outcome of the `UPDATE classifier_outputs` statement for a
  given id and action (`.error` covers both database errors and the
  zero-rowcount ValueError). -/
structure HandlerEnv where
  llmProcess : Json → Except Exn Unit
  rag : String → Except Exn String
  dbUpdate : Json → String → Except Exn Unit

/-- `get_corrective_action_from_rag` (src/corrective_actions.py lines
79-121): queries the external RAG pipeline; on exception it logs and
re-raises, so the outcome is the collaborator's outcome. -/
def get_corrective_action_from_rag (env : HandlerEnv) (query : String) :
    Except Exn String × List Event :=
  (env.rag query, [Event.ragQueried query])

/-- `update_corrective_action_db` (src/corrective_actions.py lines
124-167): runs the UPDATE; raises ValueError on zero rowcount, re-raises
database errors, so the outcome is the collaborator's outcome. -/
def update_corrective_action_db (env : HandlerEnv) (classifierId : Json)
    (action : String) : Except Exn Unit × List Event :=
  match env.dbUpdate classifierId action with
  | .ok _ => (.ok (), [Event.dbUpdated classifierId action])
  | .error e => (.error e, [])

/-- `process_corrective_action` (src/corrective_actions.py lines 45-76).
The whole body runs inside try/except returning False on any exception.
`data.get('error_message', '')` is read and then immediately overwritten
with the constant string (line 59), so the RAG query never depends on it.
A non-dict `data` raises AttributeError at `.get`, caught like the rest. -/
def process_corrective_action (env : HandlerEnv) (data : Json) : Bool × List Event :=
  match data with
  | .obj kvs =>
    match lookupKV kvs "payload_id" with
    | none => (false, [])
    | some classifierId =>
      if truthy classifierId = false then (false, [])
      else
        let incidentDescription := "No incident description provided"
        match get_corrective_action_from_rag env incidentDescription with
        | (.error _, evts) => (false, evts)
        | (.ok action, evts) =>
          match update_corrective_action_db env classifierId action with
          | (.ok _, evts2) => (true, evts ++ evts2)
          | (.error _, evts2) => (false, evts ++ evts2)
  | _ => (false, [])

/-- `handle_message` (src/corrective_actions.py lines 171-176): dispatches
to `process_corrective_action(message['data'])` when the task tag says so;
the subscript can raise KeyError, and a non-dict message raises
AttributeError at `.get` — neither is caught here. -/
def handle_message (env : HandlerEnv) (message : Json) :
    Except Exn (List Event) :=
  match message with
  | .obj kvs =>
    match lookupKV kvs "task" with
    | some (Json.str t) =>
      if t = "set_corrective_action" then
        match lookupKV kvs "data" with
        | some d => .ok (Event.corrInvoked d :: (process_corrective_action env d).2)
        | none => .error (.keyError "data")
      else .ok []
    | _ => .ok []
  | _ => .error .attributeError

/-! ## Queue listener (src/queue_listener.py) -/

/-- A fetched message: row id and deserialized payload. -/
structure Msg where
  id : String
  data : Json

/-- `get_pending_message` (src/queue_listener.py lines 32-38): fetch the
first pending row and `json.loads` its data column; a deserialization
failure raises and is not caught anywhere in the listener. -/
def get_pending_message (s : Store) : Except Exn (Option Msg) :=
  match get_first_pending_item s with
  | none => .ok none
  | some row =>
    match loads row.data with
    | some j => .ok (some ⟨row.id, j⟩)
    | none => .error .jsonDecodeError

/-- `mark_message_processed` (src/queue_listener.py lines 40-42). -/
def mark_message_processed (messageId : String) (s : Store) : Store :=
  set_processed messageId s

/-- One iteration of the `while True` body of `watch_queue`
(src/queue_listener.py lines 48-74).  `Except.error` means the exception
propagates out of `watch_queue` (there is no try/except in the loop).
Events record, in order, what the iteration did; every normal iteration
ends with the poll-interval sleep.

Branch by task tag, exactly as the source:
* `llm_invoke` — runs the transporter; does NOT mark the record processed
  (the mark call at line 73 is commented out);
* `set_corrective_action` — marks processed first, then runs the handler;
* `sourav-producer2` — prints only; neither handler nor mark;
* anything else — marks processed without any handler. -/
def watchCycle (env : HandlerEnv) (s : Store) : Except Exn (Store × List Event) :=
  match get_pending_message s with
  | .error e => .error e
  | .ok none => .ok (s, [Event.slept])
  | .ok (some message) =>
    match message.data.getItem "task" with
    | .error e => .error e
    | .ok taskJ =>
      match taskJ with
      | .str task =>
        if task = "llm_invoke" then
          match message.data.getItem "data" with
          | .error e => .error e
          | .ok d =>
            match env.llmProcess d with
            | .error e => .error e
            | .ok _ => .ok (s, [Event.llmInvoked d, Event.slept])
        else if task = "set_corrective_action" then
          let s2 := mark_message_processed message.id s
          match handle_message env message.data with
          | .error e => .error e
          | .ok evts => .ok (s2, Event.marked message.id :: evts ++ [Event.slept])
        else if task = "sourav-producer2" then
          .ok (s, [Event.slept])
        else
          .ok (mark_message_processed message.id s,
            [Event.marked message.id, Event.slept])
      | _ => .error .typeError

/-- `watch_queue` run for a bounded number of iterations; an uncaught
exception in any iteration terminates the whole loop. -/
def watchLoop (env : HandlerEnv) : Nat → Store → Except Exn (Store × List Event)
  | 0, s => .ok (s, [])
  | n + 1, s =>
    match watchCycle env s with
    | .error e => .error e
    | .ok (s2, evts) =>
      match watchLoop env n s2 with
      | .error e => .error e
      | .ok (s3, evts2) => .ok (s3, evts ++ evts2)

/-! ## Concrete fixtures for the claims -/

/-- An environment whose collaborators all succeed. -/
def envOk : HandlerEnv :=
  ⟨fun _ => .ok (), fun _ => .ok "restart the service", fun _ _ => .ok ()⟩

/-- An environment whose llm_invoke handler raises. -/
def envBoom : HandlerEnv :=
  ⟨fun _ => .error (.handlerError "transporter failure"),
   fun _ => .ok "restart the service", fun _ _ => .ok ()⟩

/-- Payload of an llm_invoke task. -/
def llmPayload : Json := Json.obj [("task", .str "llm_invoke"), ("data", .obj [])]

/-- A pending llm_invoke record, data column as `json.dumps` stores it. -/
def llmRecord : Record :=
  ⟨"m1", "\x7b\"task\": \"llm_invoke\", \"data\": \x7b\x7d\x7d", .pending⟩

/-- A pending record with the hard-coded debug tag. -/
def souravRecord : Record :=
  ⟨"m1", "\x7b\"task\": \"sourav-producer2\", \"data\": \x7b\x7d\x7d", .pending⟩

/-- A pending record whose data column is not valid JSON. -/
def badRecord : Record := ⟨"m1", "not json", .pending⟩

/-- The data sub-payload of the corrective-action scenario. -/
def dataX1 : Json := Json.obj [("payload_id", .str "X1")]

/-- Payload of the corrective-action scenario. -/
def corrPayload : Json :=
  Json.obj [("task", .str "set_corrective_action"), ("data", dataX1)]

/-- A pending set_corrective_action record. -/
def corrRecord : Record :=
  ⟨"m1",
   "\x7b\"task\": \"set_corrective_action\", \"data\": \x7b\"payload_id\": \"X1\"\x7d\x7d",
   .pending⟩

/-- A pending record with a tag no handler recognizes. -/
def unknownRecord : Record :=
  ⟨"m1", "\x7b\"task\": \"unrecognized_xyz\", \"data\": \x7b\x7d\x7d", .pending⟩

set_option maxRecDepth 10000

/-! ## Claims C1, C2, C4 (watcher marking and exception behaviour) -/

/-- C1: the claim says every fetched-and-dispatched record is `processed` by
the end of its cycle, whatever the task tag.  The code contradicts it: the
llm_invoke branch never calls `mark_message_processed` (the unconditional
call at line 73 of src/queue_listener.py is commented out), so after a cycle
that successfully dispatches an llm_invoke record the store is unchanged,
the record is still `pending`, and the next cycle redelivers and
re-dispatches the very same record. -/
theorem C1_llm_invoke_record_stays_pending :
    watchCycle envOk [llmRecord] =
      .ok ([llmRecord], [Event.llmInvoked (Json.obj []), Event.slept])
    ∧ llmRecord.status = Status.pending
    ∧ watchLoop envOk 2 [llmRecord] =
      .ok ([llmRecord], [Event.llmInvoked (Json.obj []), Event.slept,
        Event.llmInvoked (Json.obj []), Event.slept]) := by
  refine ⟨?_, rfl, ?_⟩ <;> with_unfolding_all rfl

/-- C2: the claim says a handler exception is caught at the dispatch
boundary and the loop proceeds.  The code has no try/except anywhere in
`watch_queue`: an exception raised by the llm_invoke handler propagates out
of the cycle and terminates the whole loop. -/
theorem C2_handler_exception_terminates_loop :
    watchCycle envBoom [llmRecord] = .error (.handlerError "transporter failure")
    ∧ watchLoop envBoom 3 [llmRecord] = .error (.handlerError "transporter failure") := by
  refine ⟨?_, ?_⟩ <;> with_unfolding_all rfl

/-- C4: the claim says a record whose stored payload fails to deserialize is
dropped like an unknown-tag task.  The code catches nothing around
`json.loads`: `get_pending_message` raises, the exception propagates out of
the loop, and the record stays `pending` (so a restarted watcher hits the
same record again). -/
theorem C4_invalid_payload_raises :
    get_pending_message [badRecord] = .error .jsonDecodeError
    ∧ watchCycle envOk [badRecord] = .error .jsonDecodeError
    ∧ watchLoop envOk 1 [badRecord] = .error .jsonDecodeError
    ∧ badRecord.status = Status.pending := by
  refine ⟨?_, ?_, ?_, rfl⟩ <;> with_unfolding_all rfl

/-! ## Claim C3 (unknown-tag drop) -/

/-- C3 counterexample: the tag sourav-producer2 is not one of the two
recognized registry tags, yet the watcher neither invokes a handler nor
marks the record processed — the record stays `pending` and the claimed
unknown-tag drop does not happen for it. -/
theorem C3_sourav_tag_not_dropped :
    ("sourav-producer2" ≠ "llm_invoke" ∧ "sourav-producer2" ≠ "set_corrective_action")
    ∧ watchCycle envOk [souravRecord] = .ok ([souravRecord], [Event.slept])
    ∧ souravRecord.status = Status.pending := by
  exact ⟨⟨by decide, by decide⟩, by with_unfolding_all rfl, rfl⟩

/-- C3 amended: for every pending record whose task tag is none of
llm_invoke, set_corrective_action and the hard-coded debug tag
sourav-producer2, the cycle marks the record processed and invokes no
handler (its only events are the marking and the sleep). -/
theorem C3_unknown_tag_drop (env : HandlerEnv) (s : Store) (r : Record)
    (j : Json) (t : String)
    (hfind : get_first_pending_item s = some r)
    (hload : loads r.data = some j)
    (htask : j.getItem "task" = .ok (.str t))
    (h1 : t ≠ "llm_invoke") (h2 : t ≠ "set_corrective_action")
    (h3 : t ≠ "sourav-producer2") :
    watchCycle env s =
      .ok (set_processed r.id s, [Event.marked r.id, Event.slept]) := by
  unfold watchCycle get_pending_message
  simp only [hfind, hload, htask, if_neg h1, if_neg h2, if_neg h3]
  rfl

/-- C3 amended, witness: a concrete unrecognized tag is dropped. -/
theorem C3_unknown_tag_drop_witness :
    watchCycle envOk [unknownRecord] =
      .ok (set_processed "m1" [unknownRecord], [Event.marked "m1", Event.slept]) :=
  C3_unknown_tag_drop envOk [unknownRecord] unknownRecord
    (Json.obj [("task", .str "unrecognized_xyz"), ("data", .obj [])])
    "unrecognized_xyz" (by with_unfolding_all rfl) (by with_unfolding_all rfl)
    (by with_unfolding_all rfl) (by decide) (by decide) (by decide)

/-! ## Claim C5 (ack-before-execute for set_corrective_action) -/

/-- C5: for the scenario record, whatever the external collaborators do
(including raising during RAG or the database update), the cycle returns
normally, the record is marked processed, and the event order shows the
mark happening before the handler invocation with the data sub-payload. -/
theorem C5_corrective_action_ack_before_execute (env : HandlerEnv) :
    ∃ tail, watchCycle env [corrRecord] =
      .ok ([⟨"m1", corrRecord.data, .processed⟩],
        Event.marked "m1" :: Event.corrInvoked dataX1 :: tail) := by
  have hmsg : get_pending_message [corrRecord] = .ok (some ⟨"m1", corrPayload⟩) := by
    with_unfolding_all rfl
  refine ⟨(process_corrective_action env dataX1).2 ++ [Event.slept], ?_⟩
  have htask : corrPayload.getItem "task" = .ok (.str "set_corrective_action") := by
    with_unfolding_all rfl
  have hhm : handle_message env corrPayload =
      .ok (Event.corrInvoked dataX1 :: (process_corrective_action env dataX1).2) := by
    unfold handle_message corrPayload
    simp only [lookupKV, if_neg (show ("task" : String) ≠ "payload_id" by decide),
      if_pos rfl]
    simp [dataX1]
  unfold watchCycle
  simp only [hmsg, htask, hhm]
  simp [mark_message_processed, set_processed, corrRecord]

/-! ## Claim C8 (stats consistency) -/

/-- Enqueue a batch of payloads in order (test harness for the scenario). -/
def enqueueMany (ps : List Json) (st : QState) : QState :=
  ps.foldl (fun acc p =>
    match SQLiteQueue.enqueue p acc with
    | .ok pr => pr.2
    | .error _ => acc) st

/-- Five enqueued tasks. -/
def fiveQueued : QState :=
  enqueueMany [Json.null, Json.null, Json.null, Json.null, Json.null] ⟨[], 0⟩

/-- Five enqueued tasks of which the first two are processed. -/
def fiveQueuedTwoDone : QState :=
  ⟨set_processed "uuid-1" (set_processed "uuid-0" fiveQueued.recs), fiveQueued.nextId⟩

/-- C8: from an empty store, after enqueueing 5 tasks and processing 2 the
status-count aggregation returns exactly pending ↦ 3, processed ↦ 2. -/
theorem C8_stats_consistency :
    SQLiteQueue.get_stats fiveQueuedTwoDone = [("pending", 3), ("processed", 2)] := by
  with_unfolding_all rfl

/-! ## Claim C9 (enqueue atomicity on serialization error) -/

/-- C9: `enqueue` serializes before touching the store; when `json.dumps`
raises, the exception propagates and no insert happens — the store is left
exactly as it was. -/
theorem C9_enqueue_raises_before_insert (st : QState) (v : Json) (e : Exn)
    (h : dumps v = .error e) :
    SQLiteQueue.enqueue v st = .error e := by
  unfold SQLiteQueue.enqueue
  rw [h]

/-- C9 witness: a non-serializable payload on a concrete store. -/
theorem C9_enqueue_raises_before_insert_witness :
    SQLiteQueue.enqueue (Json.opaquePy "set()") ⟨[llmRecord], 7⟩ = .error .typeError :=
  C9_enqueue_raises_before_insert ⟨[llmRecord], 7⟩ (Json.opaquePy "set()") .typeError rfl

/-! ## Claim C10 (corrective action independent of error_message) -/

/-- C10: every RAG query the corrective-action handler issues is the
constant incident description (line 59 overwrites the `error_message`
lookup), and the handler's whole observable outcome depends on the data
dict only through its `payload_id` entry — two inputs that agree there and
differ arbitrarily (for example in `error_message`) behave identically. -/
theorem C10_rag_query_constant :
    (∀ (env : HandlerEnv) (data : Json) (q : String),
      Event.ragQueried q ∈ (process_corrective_action env data).2 →
        q = "No incident description provided")
    ∧ (∀ (env : HandlerEnv) (kvs1 kvs2 : List (String × Json)),
      lookupKV kvs1 "payload_id" = lookupKV kvs2 "payload_id" →
        process_corrective_action env (.obj kvs1) =
          process_corrective_action env (.obj kvs2)) := by
  constructor
  · intro env data q hmem
    cases data with
    | obj kvs =>
      simp only [process_corrective_action] at hmem
      cases hpid : lookupKV kvs "payload_id" with
      | none => simp only [hpid] at hmem; simp at hmem
      | some cid =>
        simp only [hpid] at hmem
        by_cases htr : truthy cid = false
        · rw [if_pos htr] at hmem; simp at hmem
        · rw [if_neg htr] at hmem
          simp only [get_corrective_action_from_rag] at hmem
          cases hr : env.rag "No incident description provided" with
          | error e => simp only [hr] at hmem; simpa using hmem
          | ok action =>
            simp only [hr, update_corrective_action_db] at hmem
            cases hd : env.dbUpdate cid action with
            | ok u => simp only [hd] at hmem; simpa using hmem
            | error e => simp only [hd] at hmem; simpa using hmem
    | null => simp only [process_corrective_action] at hmem; simp at hmem
    | bool b => simp only [process_corrective_action] at hmem; simp at hmem
    | num n => simp only [process_corrective_action] at hmem; simp at hmem
    | str s => simp only [process_corrective_action] at hmem; simp at hmem
    | arr xs => simp only [process_corrective_action] at hmem; simp at hmem
    | opaquePy d => simp only [process_corrective_action] at hmem; simp at hmem
  · intro env kvs1 kvs2 h
    simp only [process_corrective_action, h]

/-- C10 witness: two concrete inputs differing only in `error_message`
produce identical outcomes, and the issued query is the constant. -/
theorem C10_rag_query_constant_witness :
    process_corrective_action envOk
        (Json.obj [("payload_id", .str "X1"), ("error_message", .str "disk failure")]) =
      process_corrective_action envOk
        (Json.obj [("payload_id", .str "X1"), ("error_message", .str "net failure")]) :=
  C10_rag_query_constant.2 envOk
    [("payload_id", .str "X1"), ("error_message", .str "disk failure")]
    [("payload_id", .str "X1"), ("error_message", .str "net failure")]
    (by with_unfolding_all rfl)

/-! ## Claim C6 (FIFO among pending) -/

/-- The record, marked processed. -/
def toProcessed (r : Record) : Record := ⟨r.id, r.data, .processed⟩

/-- One fetch-and-mark step: mark the first pending record processed (what
a successful watcher cycle does to the store). -/
def markFirstPending (s : Store) : Store :=
  match get_first_pending_item s with
  | some r => set_processed r.id s
  | none => s

theorem find_pending_append (done todo : Store)
    (hd : ∀ r ∈ done, r.status = Status.processed) :
    get_first_pending_item (done ++ todo) = get_first_pending_item todo := by
  induction done with
  | nil => rfl
  | cons r rest ih =>
    have hr : r.status = Status.processed := hd r (by simp)
    have : (decide (r.status = Status.pending)) = false := by
      rw [hr]; decide
    simp only [get_first_pending_item, List.cons_append, List.find?] at ih ⊢
    rw [this]
    exact ih (fun x hx => hd x (by simp [hx]))

theorem set_processed_of_not_mem (mid : String) (l : Store)
    (h : mid ∉ l.map Record.id) : set_processed mid l = l := by
  induction l with
  | nil => rfl
  | cons r rest ih =>
    simp only [List.map, List.mem_cons, not_or] at h
    simp only [set_processed, List.map]
    rw [if_neg (fun he => h.1 he.symm)]
    have := ih h.2
    simp only [set_processed] at this
    rw [this]

theorem set_processed_of_all_processed (mid : String) (l : Store)
    (h : ∀ r ∈ l, r.status = Status.processed) : set_processed mid l = l := by
  induction l with
  | nil => rfl
  | cons r rest ih =>
    have hr : r.status = Status.processed := h r (by simp)
    have hhead : (if r.id = mid then
        { id := r.id, data := r.data, status := Status.processed } else r) = r := by
      split
      · cases r with
        | mk i d st => simp only at hr; rw [hr]
      · rfl
    have htail := ih (fun x hx => h x (by simp [hx]))
    simp only [set_processed, List.map] at htail ⊢
    rw [hhead, htail]

theorem set_processed_append (mid : String) (a b : Store) :
    set_processed mid (a ++ b) = set_processed mid a ++ set_processed mid b := by
  simp [set_processed]

theorem processed_of_mem_mapToProcessed (l : Store) :
    ∀ r ∈ l.map toProcessed, r.status = Status.processed := by
  intro r hr
  simp only [List.mem_map] at hr
  obtain ⟨x, _, rfl⟩ := hr
  rfl

theorem first_pending_of_all_pending (l : Store)
    (hp : ∀ r ∈ l, r.status = Status.pending) :
    get_first_pending_item l = l.head? := by
  cases l with
  | nil => rfl
  | cons r rest =>
    have hr : r.status = Status.pending := hp r (by simp)
    simp only [get_first_pending_item, List.find?]
    rw [show decide (r.status = Status.pending) = true by rw [hr]; decide]
    rfl

theorem getElem?_eq_head_drop (l : List Record) (i : Nat) :
    l[i]? = (l.drop i).head? := by
  induction l generalizing i with
  | nil => cases i <;> rfl
  | cons a t ih =>
    cases i with
    | zero => simp
    | succ n => simp only [List.getElem?_cons_succ, List.drop_succ_cons, ih]

theorem mark_iterate (rs : Store)
    (hnd : (rs.map Record.id).Nodup)
    (hp : ∀ r ∈ rs, r.status = Status.pending) (i : Nat) :
    markFirstPending^[i] rs = (rs.take i).map toProcessed ++ rs.drop i := by
  induction i with
  | zero => simp
  | succ n ih =>
    rw [Function.iterate_succ_apply', ih]
    have hproc := processed_of_mem_mapToProcessed (rs.take n)
    cases hdrop : rs.drop n with
    | nil =>
      have hlen : rs.length ≤ n := List.drop_eq_nil_iff.mp hdrop
      have htake : rs.take n = rs := List.take_of_length_le hlen
      have htake1 : rs.take (n + 1) = rs := List.take_of_length_le (by omega)
      have hdrop1 : rs.drop (n + 1) = [] := List.drop_eq_nil_of_le (by omega)
      have hnone :
          get_first_pending_item (List.map toProcessed (rs.take n) ++ []) = none := by
        rw [find_pending_append _ [] hproc]
        rfl
      simp only [markFirstPending, hnone]
      rw [htake, htake1, hdrop1]
    | cons r rest =>
      have hpend_drop : ∀ x ∈ rs.drop n, x.status = Status.pending :=
        fun x hx => hp x (List.mem_of_mem_drop hx)
      have hrp : r.status = Status.pending := by
        apply hpend_drop
        rw [hdrop]
        simp
      simp only [markFirstPending]
      rw [find_pending_append _ _ hproc,
        first_pending_of_all_pending (r :: rest) (by rw [← hdrop]; exact hpend_drop)]
      simp only [List.head?]
      rw [set_processed_append, set_processed_of_all_processed _ _ hproc]
      have hid_rest : r.id ∉ rest.map Record.id := by
        have hsplit : rs = rs.take n ++ r :: rest := by
          conv_lhs => rw [← List.take_append_drop n rs]
          rw [hdrop]
        have hnd2 : (rs.map Record.id).Nodup := hnd
        rw [hsplit, List.map_append, List.map_cons] at hnd2
        exact (List.nodup_cons.mp hnd2.of_append_right).1
      have hsp : set_processed r.id (r :: rest) = toProcessed r :: rest := by
        have htail := set_processed_of_not_mem r.id rest hid_rest
        simp only [set_processed, List.map, if_pos rfl] at htail ⊢
        rw [htail]
        rfl
      rw [hsp]
      have htake1 : rs.take (n + 1) = rs.take n ++ [r] := by
        rw [List.take_succ, getElem?_eq_head_drop, hdrop]
        rfl
      have hdrop1 : rs.drop (n + 1) = rest := by
        have h1 : rs.drop (n + 1) = (rs.drop n).drop 1 := by
          rw [List.drop_drop]
        rw [h1, hdrop]
        rfl
      rw [htake1, hdrop1]
      simp

/-- C6: FIFO among pending.  For a queue of records all pending (ids unique
per the store invariant), repeatedly fetching the first pending record and
marking it processed returns the records exactly in insertion order: after
`i` fetch-and-mark rounds the fetch returns the `i`-th record, and none
once the queue is exhausted. -/
theorem C6_fifo_among_pending (rs : Store) (i : Nat)
    (hnd : (rs.map Record.id).Nodup)
    (hp : ∀ r ∈ rs, r.status = Status.pending) :
    get_first_pending_item (markFirstPending^[i] rs) = rs[i]? := by
  rw [mark_iterate rs hnd hp i,
    find_pending_append _ _ (processed_of_mem_mapToProcessed (rs.take i)),
    first_pending_of_all_pending (rs.drop i)
      (fun x hx => hp x (List.mem_of_mem_drop hx)),
    getElem?_eq_head_drop]

/-- C6 witness: a concrete three-task queue is drained in insertion order. -/
theorem C6_fifo_among_pending_witness :
    get_first_pending_item
        (markFirstPending^[1]
          [⟨"uuid-0", "\x7b\x7d", .pending⟩, ⟨"uuid-1", "\x7b\x7d", .pending⟩,
            ⟨"uuid-2", "\x7b\x7d", .pending⟩]) =
      some ⟨"uuid-1", "\x7b\x7d", .pending⟩ :=
  C6_fifo_among_pending
    [⟨"uuid-0", "\x7b\x7d", .pending⟩, ⟨"uuid-1", "\x7b\x7d", .pending⟩,
      ⟨"uuid-2", "\x7b\x7d", .pending⟩] 1 (by decide) (by decide)

/-! ## Claim C7: serialize/deserialize round trip

The development below proves `loads (dumps v) = some v` for every
serializable value whose objects have unique keys, by a fuel-indexed
round-trip induction in the style of verified recursive-descent parsers. -/

theorem char_eq_iff_toNat {c d : Char} : c = d ↔ c.toNat = d.toNat :=
  ⟨fun h => h ▸ rfl, fun h => by rw [← Char.ofNat_toNat c, h, Char.ofNat_toNat]⟩

theorem toNat_ofNat_valid {n : Nat} (h : n.isValidChar) : (Char.ofNat n).toNat = n := by
  rw [Char.ofNat, dif_pos h]
  rfl

theorem char_valid (c : Char) :
    c.toNat < 55296 ∨ (57343 < c.toNat ∧ c.toNat < 1114112) := c.valid

theorem hexVal_hexDig {d : Nat} (h : d < 16) : hexVal (hexDig d) = some d := by
  interval_cases d <;> decide

theorem parseHex4_toHex4 {n : Nat} (h : n < 65536) (r : List Char) :
    parseHex4 (toHex4 n ++ r) = some (n, r) := by
  have h1 : n / 4096 % 16 < 16 := Nat.mod_lt _ (by omega)
  have h2 : n / 256 % 16 < 16 := Nat.mod_lt _ (by omega)
  have h3 : n / 16 % 16 < 16 := Nat.mod_lt _ (by omega)
  have h4 : n % 16 < 16 := Nat.mod_lt _ (by omega)
  simp only [toHex4, List.cons_append, List.nil_append]
  simp only [parseHex4]
  rw [hexVal_hexDig h1, hexVal_hexDig h2, hexVal_hexDig h3, hexVal_hexDig h4]
  show some (4096 * (n / 4096 % 16) + 256 * (n / 256 % 16) + 16 * (n / 16 % 16)
    + n % 16, r) = some (n, r)
  have heq : 4096 * (n / 4096 % 16) + 256 * (n / 256 % 16) + 16 * (n / 16 % 16)
      + n % 16 = n := by omega
  rw [heq]

theorem char_of_toNat_eq {c : Char} {n : Nat} (h : c.toNat = n) : c = Char.ofNat n := by
  rw [← Char.ofNat_toNat c, h]

theorem psb_u (fuel : Nat) (r : List Char) :
    parseStringBody (fuel + 1) ('\\' :: 'u' :: r) =
      parseUEscape (parseStringBody fuel) r := rfl

theorem parseUEscape_hex {r : List Char} {h : Nat} {r3 : List Char}
    (he : parseHex4 r = some (h, r3))
    (k : List Char → Option (List Char × List Char)) :
    parseUEscape k r = parseUAfterHex k h r3 := by
  unfold parseUEscape
  rw [he]

theorem parseUSurrogate_step (k : List Char → Option (List Char × List Char))
    (h : Nat) (r4 : List Char) :
    parseUSurrogate k h ('\\' :: 'u' :: r4) = parseULow k h r4 := by
  show (if ('\\' : Char) = '\\' ∧ ('u' : Char) = 'u' then parseULow k h r4 else none) =
    parseULow k h r4
  rw [if_pos ⟨rfl, rfl⟩]

theorem parseULow_hex {r4 : List Char} {lo : Nat} {r5 : List Char}
    (he : parseHex4 r4 = some (lo, r5))
    (k : List Char → Option (List Char × List Char)) (h : Nat) :
    parseULow k h r4 =
      (if 56320 ≤ lo ∧ lo ≤ 57343 then
        consHead (Char.ofNat (65536 + 1024 * (h - 55296) + (lo - 56320))) (k r5)
      else none) := by
  unfold parseULow
  rw [he]

theorem parseStringBody_escapeChar (c : Char) (rest : List Char) (fuel : Nat) :
    parseStringBody (fuel + 1) (escapeChar c ++ rest) =
      consHead c (parseStringBody fuel rest) := by
  by_cases h1 : c = '"'
  · subst h1; rfl
  by_cases h2 : c = '\\'
  · subst h2; rfl
  by_cases h3 : c.toNat = 8
  · rw [char_of_toNat_eq h3]; rfl
  by_cases h4 : c.toNat = 9
  · rw [char_of_toNat_eq h4]; rfl
  by_cases h5 : c.toNat = 10
  · rw [char_of_toNat_eq h5]; rfl
  by_cases h6 : c.toNat = 12
  · rw [char_of_toNat_eq h6]; rfl
  by_cases h7 : c.toNat = 13
  · rw [char_of_toNat_eq h7]; rfl
  by_cases h8 : c.toNat < 32 ∨ 127 ≤ c.toNat
  · by_cases h9 : c.toNat < 65536
    · -- single \uXXXX escape
      rw [show escapeChar c = '\\' :: 'u' :: toHex4 c.toNat by
        unfold escapeChar
        rw [if_neg h1, if_neg h2, if_neg h3, if_neg h4, if_neg h5, if_neg h6,
          if_neg h7, if_pos h8, if_pos h9]]
      have hvalid := char_valid c
      rw [List.cons_append, List.cons_append, psb_u,
        parseUEscape_hex (parseHex4_toHex4 h9 rest)]
      unfold parseUAfterHex
      rw [if_neg (by omega), if_neg (by omega), Char.ofNat_toNat]
    · -- surrogate pair
      have hvalid := char_valid c
      have hup : c.toNat < 1114112 := by
        rcases hvalid with h | h
        · omega
        · omega
      have hhi : 55296 + (c.toNat - 65536) / 1024 < 65536 := by omega
      have hlo : 56320 + (c.toNat - 65536) % 1024 < 65536 := by omega
      rw [show escapeChar c =
          ('\\' :: 'u' :: toHex4 (55296 + (c.toNat - 65536) / 1024)) ++
          ('\\' :: 'u' :: toHex4 (56320 + (c.toNat - 65536) % 1024)) by
        unfold escapeChar
        rw [if_neg h1, if_neg h2, if_neg h3, if_neg h4, if_neg h5, if_neg h6,
          if_neg h7, if_pos h8, if_neg h9]]
      simp only [List.cons_append, List.append_assoc, List.nil_append]
      rw [psb_u, parseUEscape_hex (parseHex4_toHex4 hhi _)]
      unfold parseUAfterHex
      rw [if_pos ⟨by omega, by omega⟩, parseUSurrogate_step,
        parseULow_hex (parseHex4_toHex4 hlo rest), if_pos ⟨by omega, by omega⟩]
      have harg : 65536 + 1024 * (55296 + (c.toNat - 65536) / 1024 - 55296) +
          (56320 + (c.toNat - 65536) % 1024 - 56320) = c.toNat := by omega
      rw [harg, Char.ofNat_toNat]
  · -- printable ASCII, not quote, not backslash
    rw [show escapeChar c = [c] by
      unfold escapeChar
      rw [if_neg h1, if_neg h2, if_neg h3, if_neg h4, if_neg h5, if_neg h6,
        if_neg h7, if_neg h8]]
    simp only [List.cons_append, List.nil_append]
    simp only [parseStringBody]
    rw [if_neg h1, if_neg h2, if_neg (show ¬c.toNat < 32 by omega)]

theorem escapeChar_length_pos (c : Char) : 1 ≤ (escapeChar c).length := by
  unfold escapeChar
  repeat' split
  all_goals simp [toHex4]

theorem escapeString_length (l : List Char) : l.length ≤ (escapeString l).length := by
  induction l with
  | nil => simp [escapeString]
  | cons c t ih =>
    have hc := escapeChar_length_pos c
    simp only [escapeString, List.foldr] at ih ⊢
    rw [List.length_append]
    simp only [List.length_cons]
    omega

theorem parseStringBody_escapeString (l : List Char) :
    ∀ (rest : List Char) (fuel : Nat), l.length < fuel →
      parseStringBody fuel (escapeString l ++ '"' :: rest) = some (l, rest) := by
  induction l with
  | nil =>
    intro rest fuel hf
    cases fuel with
    | zero => omega
    | succ f => rfl
  | cons c t ih =>
    intro rest fuel hf
    cases fuel with
    | zero => omega
    | succ f =>
      have hstep : escapeString (c :: t) = escapeChar c ++ escapeString t := rfl
      rw [hstep, List.append_assoc, parseStringBody_escapeChar,
        ih rest f (by simpa using Nat.lt_of_succ_lt_succ hf)]
      rfl

theorem char_ne_of_toNat_ne {c d : Char} (h : c.toNat ≠ d.toNat) : c ≠ d :=
  fun he => h (by rw [he])

theorem digitChar_toNat {d : Nat} (h : d < 10) : (digitChar d).toNat = 48 + d :=
  toNat_ofNat_valid (Or.inl (by omega))

theorem isDigitCh_digitChar {d : Nat} (h : d < 10) : isDigitCh (digitChar d) = true := by
  simp [isDigitCh, digitChar_toNat h]
  omega

theorem digitVal_digitChar {d : Nat} (h : d < 10) : digitVal (digitChar d) = d := by
  simp [digitVal, digitChar_toNat h]

/-- Does the remainder not begin with a digit? -/
def headNotDigit : List Char → Bool
  | [] => true
  | c :: _ => !isDigitCh c

theorem takeDigits_append (ds r : List Char)
    (hds : ∀ c ∈ ds, isDigitCh c = true) (hr : headNotDigit r = true) :
    takeDigits (ds ++ r) = (ds, r) := by
  induction ds with
  | nil =>
    cases r with
    | nil => rfl
    | cons c r2 =>
      simp only [headNotDigit, Bool.not_eq_true'] at hr
      simp only [List.nil_append, takeDigits, hr]
      rfl
  | cons c t ih =>
    have hc : isDigitCh c = true := hds c (by simp)
    simp only [List.cons_append, takeDigits, hc, if_true, List.append_eq,
      ih (fun x hx => hds x (by simp [hx]))]

theorem digitsToNat_map (L : List Nat) :
    ∀ acc, (∀ d ∈ L, d < 10) →
      digitsToNat acc (L.map digitChar) =
        L.foldl (fun a d => 10 * a + d) acc := by
  induction L with
  | nil => intro acc _; rfl
  | cons d t ih =>
    intro acc hL
    have hd : d < 10 := hL d (by simp)
    rw [List.map_cons,
      show digitsToNat acc (digitChar d :: List.map digitChar t) =
        digitsToNat (10 * acc + digitVal (digitChar d)) (List.map digitChar t) from rfl,
      digitVal_digitChar hd,
      ih (10 * acc + d) (fun x hx => hL x (by simp [hx]))]
    rfl

theorem foldl_reverse_ofDigits (L : List Nat) :
    ∀ acc, L.reverse.foldl (fun a d => 10 * a + d) acc =
      acc * 10 ^ L.length + Nat.ofDigits 10 L := by
  induction L with
  | nil => intro acc; simp
  | cons d t ih =>
    intro acc
    simp only [List.reverse_cons, List.foldl_append, List.foldl, ih acc,
      Nat.ofDigits_cons, List.length_cons]
    ring

theorem natChars_ne_zero_eq {m : Nat} (hm : m ≠ 0) :
    natChars m = ((Nat.digits 10 m).reverse).map digitChar := by
  rw [natChars, if_neg hm, List.map_reverse]

theorem parseUInt_natChars (m : Nat) (r : List Char)
    (hr : headNotDigit r = true) (hf : startsFracExp r = false) :
    parseUInt (natChars m ++ r) = some (m, r) := by
  by_cases hm : m = 0
  · subst hm
    have h0 : natChars 0 ++ r = '0' :: r := rfl
    rw [h0]
    simp only [parseUInt, if_true]
    rw [if_neg (by rw [hf]; exact fun h => Bool.noConfusion h)]
  · rw [natChars_ne_zero_eq hm]
    have hnil : Nat.digits 10 m ≠ [] := Nat.digits_ne_nil_iff_ne_zero.mpr hm
    have hlt : ∀ d ∈ Nat.digits 10 m, d < 10 :=
      fun d hd => Nat.digits_lt_base (by omega) hd
    cases hrev : (Nat.digits 10 m).reverse with
    | nil => exact absurd (by simpa using congrArg List.reverse hrev) hnil
    | cons d0 E =>
      have hmem : ∀ d ∈ d0 :: E, d < 10 := by
        intro d hd
        apply hlt
        rw [← List.mem_reverse, hrev]
        exact hd
      have hd0 : d0 < 10 := hmem d0 (by simp)
      have hdig_eq : Nat.digits 10 m = E.reverse ++ [d0] := by
        have h1 := congrArg List.reverse hrev
        simpa using h1
      have hd0ne : d0 ≠ 0 := by
        have hlast := Nat.getLast_digit_ne_zero 10 hm
        have h2 : (Nat.digits 10 m).getLast? = some d0 := by
          rw [hdig_eq]
          exact List.getLast?_concat _
        rw [List.getLast?_eq_getLast _ (by simpa using hnil)] at h2
        have h3 := Option.some.inj h2
        rw [h3] at hlast
        exact hlast
      simp only [List.map, List.cons_append]
      simp only [parseUInt]
      rw [if_neg (char_ne_of_toNat_ne (by
        rw [digitChar_toNat hd0]
        show 48 + d0 ≠ 48
        omega)),
        if_pos (isDigitCh_digitChar hd0)]
      rw [takeDigits_append (E.map digitChar) r
        (by
          intro c hc
          simp only [List.mem_map] at hc
          obtain ⟨d, hd, rfl⟩ := hc
          exact isDigitCh_digitChar (hmem d (by simp [hd]))) hr]
      simp only
      rw [if_neg (by rw [hf]; exact fun h => Bool.noConfusion h)]
      rw [digitVal_digitChar hd0,
        digitsToNat_map E d0 (fun d hd => hmem d (by simp [hd]))]
      have hfold : (d0 :: E).foldl (fun a d => 10 * a + d) 0 = m := by
        rw [← hrev, foldl_reverse_ofDigits]
        simp [Nat.ofDigits_digits]
      simp only [List.foldl] at hfold
      rw [show (10 * 0 + d0) = d0 by omega] at hfold
      rw [hfold]

theorem natChars_head :
    ∀ m : Nat, ∃ c t, natChars m = c :: t ∧ isDigitCh c = true := by
  intro m
  by_cases hm : m = 0
  · subst hm
    exact ⟨'0', [], rfl, by decide⟩
  · rw [natChars_ne_zero_eq hm]
    have hnil : Nat.digits 10 m ≠ [] := Nat.digits_ne_nil_iff_ne_zero.mpr hm
    cases hrev : (Nat.digits 10 m).reverse with
    | nil => exact absurd (by simpa using congrArg List.reverse hrev) hnil
    | cons d0 E =>
      have hd0 : d0 < 10 := by
        apply Nat.digits_lt_base (by omega)
        rw [← List.mem_reverse, hrev]
        simp
      exact ⟨digitChar d0, E.map digitChar, by simp, isDigitCh_digitChar hd0⟩

theorem parseNum_intChars (n : Int) (r : List Char)
    (hr : headNotDigit r = true) (hf : startsFracExp r = false) :
    parseNum (intChars n ++ r) = some (n, r) := by
  by_cases hn : n < 0
  · rw [show intChars n = '-' :: natChars n.natAbs by rw [intChars, if_pos hn]]
    simp only [List.cons_append]
    simp only [parseNum, if_true]
    rw [parseUInt_natChars n.natAbs r hr hf]
    simp only [Option.map_some']
    congr 1
    rw [Prod.mk.injEq]
    refine ⟨?_, rfl⟩
    omega
  · rw [show intChars n = natChars n.toNat by rw [intChars, if_neg hn]]
    obtain ⟨c, t, hct, hdig⟩ := natChars_head n.toNat
    rw [hct]
    simp only [List.cons_append]
    simp only [parseNum]
    have hbounds : 48 ≤ c.toNat ∧ c.toNat ≤ 57 := by
      simpa [isDigitCh] using hdig
    rw [if_neg (char_ne_of_toNat_ne (by
      show c.toNat ≠ ('-' : Char).toNat
      have : ('-' : Char).toNat = 45 := rfl
      omega))]
    rw [show c :: (t ++ r) = natChars n.toNat ++ r by rw [hct]; rfl,
      parseUInt_natChars n.toNat r hr hf]
    simp only [Option.map_some']
    congr 1
    rw [Prod.mk.injEq]
    refine ⟨?_, rfl⟩
    omega

/-- Where a printed value may be resumed: at end of input or at a JSON
closing/separating token (the characters the scanner treats as value
terminators). -/
def delimAfter : List Char → Bool
  | [] => true
  | c :: _ => decide (c = ',' ∨ c = ']' ∨ c = rbrace)

/-- First characters a printed JSON value can have. -/
def headOk (c : Char) : Prop :=
  c = '"' ∨ c = lbrace ∨ c = '[' ∨ c = 'n' ∨ c = 't' ∨ c = 'f' ∨ c = '-' ∨
    isDigitCh c = true

theorem headOk_facts {c : Char} (h : headOk c) :
    isWs c = false ∧ c ≠ ']' ∧ c ≠ ',' ∧ c ≠ rbrace ∧ c ≠ ':' := by
  rcases h with h | h | h | h | h | h | h | h
  all_goals try (subst h; refine ⟨rfl, by decide, by decide, by decide, by decide⟩)
  have hb : 48 ≤ c.toNat ∧ c.toNat ≤ 57 := by simpa [isDigitCh] using h
  refine ⟨?_, ?_, ?_, ?_, ?_⟩
  · simp only [isWs]
    have h1 : decide (c.toNat = 32) = false := by simp; omega
    have h2 : decide (c.toNat = 9) = false := by simp; omega
    have h3 : decide (c.toNat = 10) = false := by simp; omega
    have h4 : decide (c.toNat = 13) = false := by simp; omega
    rw [h1, h2, h3, h4]
    rfl
  · exact char_ne_of_toNat_ne (by have : (']' : Char).toNat = 93 := rfl; omega)
  · exact char_ne_of_toNat_ne (by have : (',' : Char).toNat = 44 := rfl; omega)
  · exact char_ne_of_toNat_ne (by have : rbrace.toNat = 125 := rfl; omega)
  · exact char_ne_of_toNat_ne (by have : (':' : Char).toNat = 58 := rfl; omega)

theorem skipWs_not_ws {c : Char} (t : List Char) (h : isWs c = false) :
    skipWs (c :: t) = c :: t := by
  simp [skipWs, h]

theorem skipWs_headOk {c : Char} (t : List Char) (h : headOk c) :
    skipWs (c :: t) = c :: t := skipWs_not_ws t (headOk_facts h).1

theorem skipWs_space (t : List Char) : skipWs (' ' :: t) = skipWs t := rfl

theorem delimAfter_facts {r : List Char} (h : delimAfter r = true) :
    headNotDigit r = true ∧ startsFracExp r = false ∧ skipWs r = r := by
  cases r with
  | nil => exact ⟨rfl, rfl, rfl⟩
  | cons c t =>
    have hc : c = ',' ∨ c = ']' ∨ c = rbrace := by simpa [delimAfter] using h
    rcases hc with hc | hc | hc
    all_goals subst hc
    all_goals exact ⟨rfl, rfl, rfl⟩

theorem intChars_head (n : Int) :
    ∃ c t, intChars n = c :: t ∧ (c = '-' ∨ isDigitCh c = true) := by
  by_cases hn : n < 0
  · exact ⟨'-', natChars n.natAbs, by rw [intChars, if_pos hn], Or.inl rfl⟩
  · obtain ⟨c, t, hct, hd⟩ := natChars_head n.toNat
    exact ⟨c, t, by rw [intChars, if_neg hn, hct], Or.inr hd⟩

theorem opt_map_eq_some {α β : Type} {o : Option α} {f : α → β} {b : β}
    (h : o.map f = some b) : ∃ a, o = some a ∧ f a = b := by
  cases o with
  | none => exact absurd h (by simp)
  | some a => exact ⟨a, rfl, by simpa using h⟩

theorem dumpsChars_head {v : Json} {cs : List Char}
    (h : dumpsChars v = some cs) : ∃ c t, cs = c :: t ∧ headOk c := by
  cases v with
  | null =>
    have := Option.some.inj h
    exact ⟨'n', _, this.symm, Or.inr (Or.inr (Or.inr (Or.inl rfl)))⟩
  | bool b =>
    cases b with
    | true =>
      have := Option.some.inj h
      exact ⟨'t', _, this.symm, Or.inr (Or.inr (Or.inr (Or.inr (Or.inl rfl))))⟩
    | false =>
      have := Option.some.inj h
      exact ⟨'f', _, this.symm,
        Or.inr (Or.inr (Or.inr (Or.inr (Or.inr (Or.inl rfl)))))⟩
  | num n =>
    have hcs : cs = intChars n := (Option.some.inj h).symm
    obtain ⟨c, t, hct, hd⟩ := intChars_head n
    refine ⟨c, t, by rw [hcs, hct], ?_⟩
    rcases hd with hd | hd
    · exact Or.inr (Or.inr (Or.inr (Or.inr (Or.inr (Or.inr (Or.inl hd))))))
    · exact Or.inr (Or.inr (Or.inr (Or.inr (Or.inr (Or.inr (Or.inr hd))))))
  | str s =>
    have hcs : cs = strChars s := (Option.some.inj h).symm
    exact ⟨'"', _, by rw [hcs]; rfl, Or.inl rfl⟩
  | arr xs =>
    obtain ⟨ics, _, hwrap⟩ := opt_map_eq_some h
    exact ⟨'[', ics ++ [']'], hwrap.symm, Or.inr (Or.inr (Or.inl rfl))⟩
  | obj kvs =>
    obtain ⟨ics, _, hwrap⟩ := opt_map_eq_some h
    exact ⟨lbrace, ics ++ [rbrace], hwrap.symm, Or.inr (Or.inl rfl)⟩
  | opaquePy d => exact absurd h (by simp [dumpsChars])

theorem dumpsItems_head {xs : List Json} {x : Json} {t : List Json}
    {cs : List Char} (h : dumpsItems (x :: t) = some cs) (hxs : xs = x :: t) :
    ∃ c tt, cs = c :: tt ∧ headOk c := by
  cases t with
  | nil =>
    exact dumpsChars_head h
  | cons y ys =>
    cases hx : dumpsChars x with
    | none => rw [dumpsItems, hx] at h; exact absurd h (by simp)
    | some cx =>
      cases hr : dumpsItems (y :: ys) with
      | none => rw [dumpsItems, hx, hr] at h; exact absurd h (by simp)
      | some rest =>
        rw [dumpsItems, hx, hr] at h
        have hcs : cs = cx ++ ',' :: ' ' :: rest := (Option.some.inj h).symm
        obtain ⟨c, tt, hct, hok⟩ := dumpsChars_head hx
        exact ⟨c, tt ++ ',' :: ' ' :: rest, by rw [hcs, hct]; rfl, hok⟩

theorem dumpsMembers_head {k : String} {v : Json} {t : List (String × Json)}
    {cs : List Char} (h : dumpsMembers ((k, v) :: t) = some cs) :
    ∃ tt, cs = '"' :: tt := by
  cases t with
  | nil =>
    obtain ⟨cv, _, hwrap⟩ := opt_map_eq_some h
    exact ⟨_, by rw [← hwrap]; rfl⟩
  | cons m ms =>
    cases hx : dumpsChars v with
    | none => rw [dumpsMembers, hx] at h; exact absurd h (by simp)
    | some cv =>
      cases hr : dumpsMembers (m :: ms) with
      | none => rw [dumpsMembers, hx, hr] at h; exact absurd h (by simp)
      | some rest =>
        rw [dumpsMembers, hx, hr] at h
        have hcs : cs = (strChars k ++ ':' :: ' ' :: cv) ++ ',' :: ' ' :: rest :=
          (Option.some.inj h).symm
        exact ⟨_, by rw [hcs]; rfl⟩

theorem dictSet_not_mem (d : List (String × Json)) (k : String) (v : Json)
    (h : k ∉ d.map Prod.fst) : dictSet d k v = d ++ [(k, v)] := by
  induction d with
  | nil => rfl
  | cons p t ih =>
    simp only [List.map, List.mem_cons, not_or] at h
    cases p with
    | mk k2 v2 =>
      simp only [dictSet]
      rw [if_neg (by simpa using fun he => h.1 he.symm), ih h.2]
      rfl

theorem buildDict_go (kvs : List (String × Json)) :
    ∀ acc, ((acc ++ kvs).map Prod.fst).Nodup →
      kvs.foldl (fun d kv => dictSet d kv.1 kv.2) acc = acc ++ kvs := by
  induction kvs with
  | nil => intro acc _; simp
  | cons p t ih =>
    intro acc hnd
    cases p with
    | mk k v =>
      have hk : k ∉ acc.map Prod.fst := by
        intro hmem
        rw [List.map_append] at hnd
        have h2 := (List.nodup_append.mp hnd).2.2
        exact h2 hmem (by simp)
      simp only [List.foldl]
      rw [dictSet_not_mem acc k v hk]
      rw [ih (acc ++ [(k, v)]) (by
        rw [List.append_assoc]
        simpa using hnd)]
      simp

theorem buildDict_self {kvs : List (String × Json)}
    (h : (kvs.map Prod.fst).Nodup) : buildDict kvs = kvs :=
  buildDict_go kvs [] (by simpa using h)

theorem sv_null (fuel : Nat) (r : List Char) :
    scanValue (fuel + 1) ('n' :: 'u' :: 'l' :: 'l' :: r) = some (Json.null, r) := rfl

theorem sv_true (fuel : Nat) (r : List Char) :
    scanValue (fuel + 1) ('t' :: 'r' :: 'u' :: 'e' :: r) = some (Json.bool true, r) := rfl

theorem sv_false (fuel : Nat) (r : List Char) :
    scanValue (fuel + 1) ('f' :: 'a' :: 'l' :: 's' :: 'e' :: r) =
      some (Json.bool false, r) := rfl

theorem sv_quote (fuel : Nat) (rest : List Char) :
    scanValue (fuel + 1) ('"' :: rest) =
      (parseStringBody (rest.length + 1) rest).map
        (fun p => (Json.str (String.mk p.1), p.2)) := rfl

theorem sv_lbrace (fuel : Nat) (rest : List Char) :
    scanValue (fuel + 1) (lbrace :: rest) =
      scanObjectStart (scanObjectItems fuel) (skipWs rest) := rfl

theorem sv_lbrack (fuel : Nat) (rest : List Char) :
    scanValue (fuel + 1) ('[' :: rest) =
      scanArrayStart (scanArrayItems fuel) (skipWs rest) := rfl

theorem sv_num (fuel : Nat) {c : Char} (rest : List Char)
    (h : c = '-' ∨ isDigitCh c = true) :
    scanValue (fuel + 1) (c :: rest) =
      (parseNum (c :: rest)).map (fun p => (Json.num p.1, p.2)) := by
  rcases h with h | h
  · subst h; rfl
  · have hb : 48 ≤ c.toNat ∧ c.toNat ≤ 57 := by simpa [isDigitCh] using h
    simp only [scanValue]
    rw [if_neg (char_ne_of_toNat_ne (by
        have hq : ('"' : Char).toNat = 34 := rfl
        omega)),
      if_neg (char_ne_of_toNat_ne (by
        have hq : lbrace.toNat = 123 := rfl
        omega)),
      if_neg (char_ne_of_toNat_ne (by
        have hq : ('[' : Char).toNat = 91 := rfl
        omega)),
      if_neg (char_ne_of_toNat_ne (by
        have hq : ('n' : Char).toNat = 110 := rfl
        omega)),
      if_neg (char_ne_of_toNat_ne (by
        have hq : ('t' : Char).toNat = 116 := rfl
        omega)),
      if_neg (char_ne_of_toNat_ne (by
        have hq : ('f' : Char).toNat = 102 := rfl
        omega)),
      if_pos (Or.inr h)]

theorem sas_items {k : List Char → Option (List Json × List Char)}
    {c : Char} {t : List Char} (h : headOk c) :
    scanArrayStart k (c :: t) = (k (c :: t)).map (fun p => (Json.arr p.1, p.2)) := by
  simp only [scanArrayStart]
  rw [if_neg (headOk_facts h).2.1]

theorem sos_items {k : List Char → Option (List (String × Json) × List Char)}
    {c : Char} {t : List Char} (h : headOk c) :
    scanObjectStart k (c :: t) =
      (k (c :: t)).map (fun p => (Json.obj (buildDict p.1), p.2)) := by
  simp only [scanObjectStart]
  rw [if_neg (headOk_facts h).2.2.2.1]

theorem sai_step {fuel : Nat} {cs : List Char} {v : Json} {r : List Char}
    (h : scanValue fuel cs = some (v, r)) :
    scanArrayItems (fuel + 1) cs = afterArrayItem (scanArrayItems fuel) v r := by
  simp only [scanArrayItems, h]

theorem aai_close {k : List Char → Option (List Json × List Char)} {v : Json}
    {r r2 : List Char} (h : skipWs r = ']' :: r2) :
    afterArrayItem k v r = some ([v], r2) := by
  unfold afterArrayItem
  rw [h]
  simp

theorem aai_comma {k : List Char → Option (List Json × List Char)} {v : Json}
    {vs : List Json} {r r2 r3 : List Char} (h1 : skipWs r = ',' :: r2)
    (h2 : k (skipWs r2) = some (vs, r3)) :
    afterArrayItem k v r = some (v :: vs, r3) := by
  unfold afterArrayItem
  rw [h1]
  simp only [h2]
  rw [if_neg (by decide)]
  simp

theorem soi_step {fuel : Nat} {rest : List Char} {kcs r1 : List Char}
    (h : parseStringBody (rest.length + 1) rest = some (kcs, r1)) :
    scanObjectItems (fuel + 1) ('"' :: rest) =
      afterObjectKey (scanValue fuel) (scanObjectItems fuel) kcs r1 := by
  simp only [scanObjectItems, h]
  rw [if_pos trivial]

theorem aok_step {sv : List Char → Option (Json × List Char)}
    {rec : List Char → Option (List (String × Json) × List Char)}
    {kcs r1 r2 : List Char} {v : Json} {r3 : List Char}
    (h1 : skipWs r1 = ':' :: r2) (h2 : sv (skipWs r2) = some (v, r3)) :
    afterObjectKey sv rec kcs r1 = afterObjectValue rec kcs v r3 := by
  unfold afterObjectKey
  rw [h1]
  simp only [h2]
  rw [if_pos trivial]

theorem aov_close {rec : List Char → Option (List (String × Json) × List Char)}
    {kcs : List Char} {v : Json} {r3 r4 : List Char}
    (h : skipWs r3 = rbrace :: r4) :
    afterObjectValue rec kcs v r3 = some ([(String.mk kcs, v)], r4) := by
  unfold afterObjectValue
  rw [h]
  simp

theorem aov_comma {rec : List Char → Option (List (String × Json) × List Char)}
    {kcs : List Char} {v : Json} {kvs : List (String × Json)}
    {r3 r4 r5 : List Char} (h1 : skipWs r3 = ',' :: r4)
    (h2 : rec (skipWs r4) = some (kvs, r5)) :
    afterObjectValue rec kcs v r3 = some ((String.mk kcs, v) :: kvs, r5) := by
  unfold afterObjectValue
  rw [h1]
  simp only [h2]
  rw [if_neg (by decide)]
  simp

theorem string_mk_toList (s : String) : String.mk s.toList = s := rfl

theorem skipWs_rbracket (r : List Char) : skipWs (']' :: r) = ']' :: r := rfl

theorem skipWs_comma (r : List Char) : skipWs (',' :: r) = ',' :: r := rfl

theorem skipWs_colon (r : List Char) : skipWs (':' :: r) = ':' :: r := rfl

theorem skipWs_rbrace (r : List Char) : skipWs (rbrace :: r) = rbrace :: r := rfl

theorem jsonFuel_pos (v : Json) : 1 ≤ jsonFuel v := by
  cases v <;> simp [jsonFuel]

theorem strChars_length (s : String) : 2 ≤ (strChars s).length := by
  simp [strChars]

theorem natChars_length (m : Nat) : 1 ≤ (natChars m).length := by
  obtain ⟨c, t, hct, _⟩ := natChars_head m
  rw [hct]
  simp

theorem intChars_length (n : Int) : 1 ≤ (intChars n).length := by
  obtain ⟨c, t, hct, _⟩ := intChars_head n
  rw [hct]
  simp

/-- The input length bounds the scanner budget a printed value needs. -/
theorem fuelBound :
    ∀ n : Nat,
      (∀ v cs, jsonFuel v ≤ n → dumpsChars v = some cs →
        jsonFuel v ≤ cs.length) ∧
      (∀ xs cs, xs ≠ [] → itemsFuel xs ≤ n → dumpsItems xs = some cs →
        itemsFuel xs ≤ cs.length + 1) ∧
      (∀ kvs cs, kvs ≠ [] → membersFuel kvs ≤ n → dumpsMembers kvs = some cs →
        membersFuel kvs ≤ cs.length + 1) := by
  intro n
  induction n with
  | zero =>
    refine ⟨fun v cs hf _ => absurd hf (by have := jsonFuel_pos v; omega), ?_, ?_⟩
    · intro xs cs hne hf _
      cases xs with
      | nil => exact absurd rfl hne
      | cons x t => simp [itemsFuel] at hf
    · intro kvs cs hne hf _
      cases kvs with
      | nil => exact absurd rfl hne
      | cons p t =>
        cases p
        simp [membersFuel] at hf
  | succ m ih =>
    obtain ⟨ihA, ihB, ihC⟩ := ih
    refine ⟨?_, ?_, ?_⟩
    · intro v cs hf hd
      cases v with
      | null =>
        rw [← Option.some.inj hd]
        simp [jsonFuel]
      | bool b =>
        cases b <;> rw [← Option.some.inj hd] <;> simp [jsonFuel]
      | num k =>
        rw [← Option.some.inj hd]
        have := intChars_length k
        simp [jsonFuel]
        omega
      | str s =>
        rw [← Option.some.inj hd]
        have := strChars_length s
        simp [jsonFuel]
        omega
      | opaquePy d => exact absurd hd (by simp [dumpsChars])
      | arr xs =>
        obtain ⟨ics, hi, hwrap⟩ := opt_map_eq_some hd
        rw [← hwrap]
        cases xs with
        | nil => simp [jsonFuel, itemsFuel]
        | cons x t =>
          have hf2 : itemsFuel (x :: t) ≤ m := by
            simp only [jsonFuel] at hf
            omega
          have := ihB (x :: t) ics (by simp) hf2 hi
          simp only [jsonFuel, List.length_append, List.length_cons]
          simp only [List.length_nil]
          omega
      | obj kvs =>
        obtain ⟨ics, hi, hwrap⟩ := opt_map_eq_some hd
        rw [← hwrap]
        cases kvs with
        | nil => simp [jsonFuel, membersFuel]
        | cons p t =>
          have hf2 : membersFuel (p :: t) ≤ m := by
            simp only [jsonFuel] at hf
            omega
          have := ihC (p :: t) ics (by simp) hf2 hi
          simp only [jsonFuel, List.length_append, List.length_cons]
          simp only [List.length_nil]
          omega
    · intro xs cs hne hf hd
      cases xs with
      | nil => exact absurd rfl hne
      | cons x t =>
        cases t with
        | nil =>
          have hx : dumpsChars x = some cs := hd
          have hfx : jsonFuel x ≤ m := by
            simp only [itemsFuel] at hf
            omega
          have := ihA x cs hfx hx
          simp only [itemsFuel, itemsFuel]
          omega
        | cons y ys =>
          cases hx : dumpsChars x with
          | none => rw [dumpsItems, hx] at hd; exact absurd hd (by simp)
          | some cx =>
            cases hr : dumpsItems (y :: ys) with
            | none => rw [dumpsItems, hx, hr] at hd; exact absurd hd (by simp)
            | some rest =>
              rw [dumpsItems, hx, hr] at hd
              rw [← Option.some.inj hd]
              have hfx : jsonFuel x ≤ m := by
                simp only [itemsFuel] at hf
                have := jsonFuel_pos x
                omega
              have hfr : itemsFuel (y :: ys) ≤ m := by
                simp only [itemsFuel] at hf ⊢
                have := jsonFuel_pos x
                omega
              have h1 := ihA x cx hfx hx
              have h2 := ihB (y :: ys) rest (by simp) hfr hr
              simp only [itemsFuel] at h2 ⊢
              simp only [List.length_append, List.length_cons]
              omega
    · intro kvs cs hne hf hd
      cases kvs with
      | nil => exact absurd rfl hne
      | cons p t =>
        cases p with
        | mk k v =>
          cases t with
          | nil =>
            obtain ⟨cv, hv, hwrap⟩ := opt_map_eq_some hd
            rw [← hwrap]
            have hfv : jsonFuel v ≤ m := by
              simp only [membersFuel] at hf
              omega
            have := ihA v cv hfv hv
            have := strChars_length k
            simp only [membersFuel, membersFuel, List.length_append,
              List.length_cons]
            omega
          | cons q qs =>
            cases hv : dumpsChars v with
            | none => rw [dumpsMembers, hv] at hd; exact absurd hd (by simp)
            | some cv =>
              cases hr : dumpsMembers (q :: qs) with
              | none =>
                rw [dumpsMembers, hv, hr] at hd
                exact absurd hd (by simp)
              | some rest =>
                rw [dumpsMembers, hv, hr] at hd
                rw [← Option.some.inj hd]
                have hfv : jsonFuel v ≤ m := by
                  simp only [membersFuel] at hf
                  omega
                have hfr : membersFuel (q :: qs) ≤ m := by
                  simp only [membersFuel] at hf ⊢
                  have := jsonFuel_pos v
                  omega
                have h1 := ihA v cv hfv hv
                have h2 := ihC (q :: qs) rest (by simp) hfr hr
                have h3 := strChars_length k
                simp only [membersFuel] at h2 ⊢
                simp only [List.length_append, List.length_cons]
                omega

/-- Round trip, by induction on the scanner budget: a printed value,
followed by a value terminator, scans back to itself. -/
theorem scanRT :
    ∀ fuel : Nat,
      (∀ v cs r, jsonFuel v ≤ fuel → dumpsChars v = some cs → noDupJ v = true →
        delimAfter r = true → scanValue fuel (cs ++ r) = some (v, r)) ∧
      (∀ xs cs r, xs ≠ [] → itemsFuel xs ≤ fuel → dumpsItems xs = some cs →
        noDupItems xs = true →
        scanArrayItems fuel (cs ++ ']' :: r) = some (xs, r)) ∧
      (∀ kvs cs r, kvs ≠ [] → membersFuel kvs ≤ fuel →
        dumpsMembers kvs = some cs → noDupMembers kvs = true →
        scanObjectItems fuel (cs ++ rbrace :: r) = some (kvs, r)) := by
  intro fuel
  induction fuel with
  | zero =>
    refine ⟨fun v cs r hf _ _ _ =>
        absurd hf (by have := jsonFuel_pos v; omega), ?_, ?_⟩
    · intro xs cs r hne hf _ _
      cases xs with
      | nil => exact absurd rfl hne
      | cons x t => simp [itemsFuel] at hf
    · intro kvs cs r hne hf _ _
      cases kvs with
      | nil => exact absurd rfl hne
      | cons p t =>
        cases p
        simp [membersFuel] at hf
  | succ f ih =>
    obtain ⟨ihA, ihB, ihC⟩ := ih
    refine ⟨?_, ?_, ?_⟩
    · -- values
      intro v cs r hf hd hnd hdel
      cases v with
      | null =>
        rw [← Option.some.inj hd]
        exact sv_null f r
      | bool b =>
        cases b
        · rw [← Option.some.inj hd]
          exact sv_false f r
        · rw [← Option.some.inj hd]
          exact sv_true f r
      | num k =>
        rw [← Option.some.inj hd]
        obtain ⟨c, t, hct, hcd⟩ := intChars_head k
        rw [hct, List.cons_append, sv_num f _ hcd, ← List.cons_append, ← hct,
          parseNum_intChars k r (delimAfter_facts hdel).1
            (delimAfter_facts hdel).2.1]
        rfl
      | str s =>
        rw [← Option.some.inj hd]
        have hshape : strChars s ++ r =
            '"' :: (escapeString s.toList ++ '"' :: r) := by
          simp [strChars]
        rw [hshape, sv_quote,
          parseStringBody_escapeString s.toList r _ (by
            have h1 := escapeString_length s.toList
            simp only [List.length_append, List.length_cons]
            omega)]
        simp [string_mk_toList]
      | opaquePy d => exact absurd hd (by simp [dumpsChars])
      | arr xs =>
        obtain ⟨ics, hi, hwrap⟩ := opt_map_eq_some hd
        rw [← hwrap]
        cases xs with
        | nil =>
          have hnil : ics = [] := (Option.some.inj hi).symm
          subst hnil
          show scanValue (f + 1) ('[' :: ']' :: r) = some (Json.arr [], r)
          rfl
        | cons x t =>
          have hne : (x : Json) :: t ≠ [] := by simp
          have hnd2 : noDupItems (x :: t) = true := by
            simpa [noDupJ] using hnd
          have hf2 : itemsFuel (x :: t) ≤ f := by
            simp only [jsonFuel] at hf
            omega
          obtain ⟨c, tt, hct, hok⟩ := dumpsItems_head hi rfl
          have hshape : ('[' :: ics ++ [']']) ++ r = '[' :: (ics ++ ']' :: r) := by
            simp
          rw [hshape, sv_lbrack, hct, List.cons_append, skipWs_headOk _ hok,
            sas_items hok, ← List.cons_append, ← hct,
            ihB (x :: t) ics r hne hf2 hi hnd2]
          rfl
      | obj kvs =>
        obtain ⟨ics, hi, hwrap⟩ := opt_map_eq_some hd
        rw [← hwrap]
        cases kvs with
        | nil =>
          have hnil : ics = [] := (Option.some.inj hi).symm
          subst hnil
          show scanValue (f + 1) (lbrace :: rbrace :: r) = some (Json.obj [], r)
          rfl
        | cons p t =>
          have hne : (p : String × Json) :: t ≠ [] := by simp
          have hnds : (decide (((p :: t).map Prod.fst).Nodup) &&
              noDupMembers (p :: t)) = true := by
            simpa [noDupJ] using hnd
          have hknd : ((p :: t).map Prod.fst).Nodup := by
            have := (Bool.and_eq_true _ _).mp hnds
            exact of_decide_eq_true this.1
          have hnd2 : noDupMembers (p :: t) = true :=
            ((Bool.and_eq_true _ _).mp hnds).2
          have hf2 : membersFuel (p :: t) ≤ f := by
            simp only [jsonFuel] at hf
            omega
          cases p with
          | mk k v =>
            obtain ⟨tt, hct⟩ := dumpsMembers_head hi
            have hok : headOk '"' := Or.inl rfl
            have hshape : (lbrace :: ics ++ [rbrace]) ++ r =
                lbrace :: (ics ++ rbrace :: r) := by
              simp
            rw [hshape, sv_lbrace, hct, List.cons_append, skipWs_headOk _ hok,
              sos_items hok, ← List.cons_append, ← hct,
              ihC ((k, v) :: t) ics r hne hf2 hi hnd2]
            simp only [Option.map_some']
            rw [buildDict_self hknd]
    · -- array items
      intro xs cs r hne hf hd hnd
      cases xs with
      | nil => exact absurd rfl hne
      | cons x t =>
        cases t with
        | nil =>
          have hdx : dumpsChars x = some cs := hd
          have hfx : jsonFuel x ≤ f := by
            simp only [itemsFuel] at hf
            omega
          have hndx : noDupJ x = true := by simpa [noDupItems] using hnd
          have hvx : scanValue f (cs ++ ']' :: r) = some (x, ']' :: r) :=
            ihA x cs (']' :: r) hfx hdx hndx rfl
          rw [sai_step hvx, aai_close (skipWs_rbracket r)]
        | cons y ys =>
          cases hx : dumpsChars x with
          | none => rw [dumpsItems, hx] at hd; exact absurd hd (by simp)
          | some cx =>
            cases hr : dumpsItems (y :: ys) with
            | none => rw [dumpsItems, hx, hr] at hd; exact absurd hd (by simp)
            | some rest =>
              rw [dumpsItems, hx, hr] at hd
              rw [← Option.some.inj hd]
              have hfx : jsonFuel x ≤ f := by
                simp only [itemsFuel] at hf
                have := jsonFuel_pos x
                omega
              have hfr : itemsFuel (y :: ys) ≤ f := by
                simp only [itemsFuel] at hf ⊢
                have := jsonFuel_pos x
                omega
              have hndb : noDupJ x = true ∧ noDupItems (y :: ys) = true := by
                have h1 : (noDupJ x && noDupItems (y :: ys)) = true := hnd
                exact (Bool.and_eq_true _ _).mp h1
              have hshape : (cx ++ ',' :: ' ' :: rest) ++ ']' :: r =
                  cx ++ (',' :: ' ' :: (rest ++ ']' :: r)) := by
                simp
              rw [hshape]
              have hvx : scanValue f (cx ++ ',' :: ' ' :: (rest ++ ']' :: r)) =
                  some (x, ',' :: ' ' :: (rest ++ ']' :: r)) :=
                ihA x cx _ hfx hx hndb.1 rfl
              rw [sai_step hvx]
              obtain ⟨c, tt, hct, hok⟩ := dumpsItems_head hr rfl
              have h2 : scanArrayItems f (skipWs (' ' :: (rest ++ ']' :: r))) =
                  some (y :: ys, r) := by
                rw [skipWs_space, hct, List.cons_append, skipWs_headOk _ hok,
                  ← List.cons_append, ← hct]
                exact ihB (y :: ys) rest r (by simp) hfr hr hndb.2
              rw [aai_comma (skipWs_comma _) h2]
    · -- object members
      intro kvs cs r hne hf hd hnd
      cases kvs with
      | nil => exact absurd rfl hne
      | cons p t =>
        cases p with
        | mk k v =>
          have hfv : jsonFuel v ≤ f := by
            simp only [membersFuel] at hf
            omega
          cases t with
          | nil =>
            obtain ⟨cv, hv, hwrap⟩ := opt_map_eq_some hd
            rw [← hwrap]
            have hndv : noDupJ v = true := by simpa [noDupMembers] using hnd
            have hshape : (strChars k ++ ':' :: ' ' :: cv) ++ rbrace :: r =
                '"' :: (escapeString k.toList ++
                  '"' :: (':' :: ' ' :: (cv ++ rbrace :: r))) := by
              simp [strChars]
            rw [hshape,
              soi_step (parseStringBody_escapeString k.toList _ _ (by
                have h1 := escapeString_length k.toList
                simp only [List.length_append, List.length_cons]
                omega))]
            have hvv : scanValue f
                (skipWs (' ' :: (cv ++ rbrace :: r))) = some (v, rbrace :: r) := by
              obtain ⟨c, tt, hct, hok⟩ := dumpsChars_head hv
              rw [skipWs_space, hct, List.cons_append, skipWs_headOk _ hok,
                ← List.cons_append, ← hct]
              exact ihA v cv (rbrace :: r) hfv hv hndv rfl
            rw [aok_step (skipWs_colon _) hvv, aov_close (skipWs_rbrace _), string_mk_toList]
          | cons q qs =>
            cases hv : dumpsChars v with
            | none => rw [dumpsMembers, hv] at hd; exact absurd hd (by simp)
            | some cv =>
              cases hr : dumpsMembers (q :: qs) with
              | none =>
                rw [dumpsMembers, hv, hr] at hd
                exact absurd hd (by simp)
              | some rest =>
                rw [dumpsMembers, hv, hr] at hd
                rw [← Option.some.inj hd]
                have hfr : membersFuel (q :: qs) ≤ f := by
                  simp only [membersFuel] at hf ⊢
                  have := jsonFuel_pos v
                  omega
                have hndb : noDupJ v = true ∧ noDupMembers (q :: qs) = true := by
                  have h1 : (noDupJ v && noDupMembers (q :: qs)) = true := hnd
                  exact (Bool.and_eq_true _ _).mp h1
                have hshape :
                    ((strChars k ++ ':' :: ' ' :: cv) ++ ',' :: ' ' :: rest) ++
                      rbrace :: r =
                    '"' :: (escapeString k.toList ++
                      '"' :: (':' :: ' ' ::
                        (cv ++ ',' :: ' ' :: (rest ++ rbrace :: r)))) := by
                  simp [strChars]
                rw [hshape,
                  soi_step (parseStringBody_escapeString k.toList _ _ (by
                    have h1 := escapeString_length k.toList
                    simp only [List.length_append, List.length_cons]
                    omega))]
                have hvv : scanValue f
                    (skipWs (' ' :: (cv ++ ',' :: ' ' :: (rest ++ rbrace :: r)))) =
                    some (v, ',' :: ' ' :: (rest ++ rbrace :: r)) := by
                  obtain ⟨c, tt, hct, hok⟩ := dumpsChars_head hv
                  rw [skipWs_space, hct, List.cons_append, skipWs_headOk _ hok,
                    ← List.cons_append, ← hct]
                  exact ihA v cv _ hfv hv hndb.1 rfl
                rw [aok_step (skipWs_colon _) hvv]
                obtain ⟨tt2, hct2⟩ := dumpsMembers_head hr
                have h2 : scanObjectItems f
                    (skipWs (' ' :: (rest ++ rbrace :: r))) =
                    some ((q :: qs), r) := by
                  rw [skipWs_space, hct2, List.cons_append,
                    skipWs_headOk _ (Or.inl rfl), ← List.cons_append, ← hct2]
                  exact ihC (q :: qs) rest r (by simp) hfr hr hndb.2
                rw [aov_comma (skipWs_comma _) h2, string_mk_toList]

/-- `json.loads` inverts `json.dumps` on every serializable value whose
objects have unique keys (every value a Python dict produces). -/
theorem loads_dumps {v : Json} {s : String} (hd : dumps v = Except.ok s)
    (hnd : noDupJ v = true) : loads s = some v := by
  cases hc : dumpsChars v with
  | none =>
    rw [dumps, hc] at hd
    exact absurd hd (by simp)
  | some cs =>
    rw [dumps, hc] at hd
    have hs : String.mk cs = s := Except.ok.inj hd
    subst hs
    unfold loads
    have htl : (String.mk cs).toList = cs := rfl
    rw [htl]
    obtain ⟨c, t, hct, hok⟩ := dumpsChars_head hc
    rw [hct, skipWs_headOk _ hok, ← hct]
    have hfuel : jsonFuel v ≤ cs.length + 1 := by
      have := (fuelBound (jsonFuel v)).1 v cs le_rfl hc
      omega
    have hscan := (scanRT (cs.length + 1)).1 v cs [] hfuel hc hnd rfl
    rw [List.append_nil] at hscan
    rw [hscan]
    rfl

/-- C7: serialize-at-enqueue / deserialize-at-fetch round trip.  For every
JSON-representable payload (a serializable value with unique keys, i.e.
what a Python dict gives `json.dumps`), enqueueing it into an empty store
and fetching via `get_pending_message` returns a message whose data field
is exactly the original payload. -/
theorem C7_enqueue_fetch_round_trip (p : Json) (sp : String)
    (hser : dumps p = Except.ok sp) (hnd : noDupJ p = true) :
    SQLiteQueue.enqueue p ⟨[], 0⟩ =
      .ok ("uuid-0", ⟨[⟨"uuid-0", sp, .pending⟩], 1⟩) ∧
    get_pending_message [⟨"uuid-0", sp, .pending⟩] = .ok (some ⟨"uuid-0", p⟩) := by
  constructor
  · unfold SQLiteQueue.enqueue
    rw [hser]
    rfl
  · unfold get_pending_message
    have hfp : get_first_pending_item [⟨"uuid-0", sp, .pending⟩] =
        some ⟨"uuid-0", sp, .pending⟩ := rfl
    rw [hfp]
    simp only
    rw [loads_dumps hser hnd]

/-- C7 witness: the corrective-action scenario payload round trips. -/
theorem C7_enqueue_fetch_round_trip_witness :
    SQLiteQueue.enqueue corrPayload ⟨[], 0⟩ =
      .ok ("uuid-0", ⟨[⟨"uuid-0", corrRecord.data, .pending⟩], 1⟩) ∧
    get_pending_message [⟨"uuid-0", corrRecord.data, .pending⟩] =
      .ok (some ⟨"uuid-0", corrPayload⟩) :=
  C7_enqueue_fetch_round_trip corrPayload corrRecord.data
    (by with_unfolding_all rfl) (by with_unfolding_all rfl)

end QueueSpec
